import Mathlib

/-!
Shallow embedding of the PyCross nonogram solver (src/PyCross.py) together
with theorems settling the specification claims.

Conventions used throughout:
* a numpy row/column slice becomes a `List Cell`;
* Python ints that can go negative (right-packed bounds, `force`) become `ℤ`,
  everything that stays non-negative becomes `ℕ`;
* code that raises `SolveError` returns `Except SolveErr _`;
* `sys.exit` inside `slice_is_legal` is modelled as `Except Unit _`'s error.
Each definition names the Python function it is translated from.
-/

set_option maxHeartbeats 1600000

namespace PyCross

/-- Cell states from class `Board`: `UNKNOWN = 0`, `FILLED = 1`, `BLANK = 2`. -/
inductive Cell where
  | unknown
  | filled
  | blank
deriving DecidableEq, Repr

/-- The three `raise SolveError(...)` sites reachable from `solve_slice`:
`noSolutions` is `recursive_solve`'s "no possible solutions!",
`hintsTooLarge` is `solve_slice`'s "hints are larger than available space",
`exceedsHints` is the run-scan's "exceeds hints" error. -/
inductive SolveErr where
  | noSolutions
  | hintsTooLarge
  | exceedsHints
deriving DecidableEq, Repr

/-- Left part of `Board.get_slice_left_right_available`: the `while` loop
advancing `left` over leading BLANK cells. -/
def leftTrim (s : List Cell) : ℕ :=
  (s.takeWhile (· == Cell.blank)).length

/-- Right part of `Board.get_slice_left_right_available`: the `while` loop
decrementing `right` while `right > left` and the cell is BLANK. -/
def rightTrimAux (s : List Cell) (left : ℕ) : ℕ → ℕ
  | 0 => 0
  | r + 1 =>
    if r + 1 > left ∧ s.get? (r + 1) = some Cell.blank then rightTrimAux s left r
    else r + 1

/-- `Board.get_slice_left_right_available`, returning `(left, right, available)`.
For the empty slice Python would produce `right = -1` and `available = 0`; we
keep `right : ℕ` (it is never used in that case) and return `available = 0`
explicitly. -/
def slTrim (s : List Cell) : ℕ × ℕ × ℕ :=
  let l := leftTrim s
  let r := rightTrimAux s l (s.length - 1)
  (l, r, if s.isEmpty then 0 else r + 1 - l)

/-- Right-packed rightmost start position of each hint, from the second loop of
`Board.get_all_positions` (`right2` accumulation, then `reverse`). Entries can
be negative when the hints do not fit, hence `ℤ`. -/
def hintsRightPos (right : ℤ) : List ℕ → List ℤ
  | [] => []
  | h :: hs =>
    match hintsRightPos right hs with
    | [] => [right + 1 - h]
    | r :: rs => (r - 1 - h) :: r :: rs

/-- Inclusive integer range `[lo, hi]` as a list of naturals (empty when
`hi < lo`; all members are at least `lo`, so `ℕ` suffices). -/
def intRangeIncl (lo : ℕ) (hi : ℤ) : List ℕ :=
  (List.range (hi + 1 - lo).toNat).map (fun i => lo + i)

/-- The odometer loop of `Board.get_all_positions`.  The loop walks the start
positions like a mixed-radix counter: the first hint ranges over
`[lo, rp 0]`, and after placing hint `j` at `p` the next hint ranges over
`[p + h j + 1, rp (j+1)]` (the reset step `hints_pos[idx+1] =
hints_pos[idx] + hints[idx] + 1` gives the lower end, the carry test
`hints_pos[idx] > hints_right_pos[idx]` the upper end).  The generator's
yield order is exactly the nested left-to-right order of this recursion. -/
def positionsFrom : ℕ → List ℕ → List ℤ → List (List ℕ)
  | lo, [_h], r :: _ => (intRangeIncl lo r).map (fun p => [p])
  | lo, h :: h2 :: hs, r :: rs =>
    (intRangeIncl lo r).flatMap
      (fun p => (positionsFrom (p + h + 1) (h2 :: hs) rs).map (fun t => p :: t))
  | _, _, _ => []

/-- `Board.get_all_positions left right hints`: every legal placement, each an
ordered list of start positions, in generation order.  (Python raises an
`IndexError` on empty hints; all callers guard against that, and we return
the empty list.) -/
def getAllPositions (left right : ℕ) (hints : List ℕ) : List (List ℕ) :=
  positionsFrom left hints (hintsRightPos right hints)

/-- The per-block consistency loop shared by `recursive_solve` and
`slice_is_legal` (the `okay`/`end` loop): walks the `(pos, size)` pairs,
rejecting a placement that would leave a FILLED cell in the gap before a
block or would lay a block over a BLANK cell; returns the final `end`
(one past the last block) when every block passes. -/
def okEnd (s : List Cell) : ℕ → List (ℕ × ℕ) → Option ℕ
  | e, [] => some e
  | e, (pos, size) :: rest =>
    if pos > e ∧ ((s.drop e).take (pos - e)).any (· == Cell.filled) then none
    else if ((s.drop pos).take size).any (· == Cell.blank) then none
    else okEnd s (pos + size) rest

/-- `numpy.any(slice[e:] == Board.FILLED)`. -/
def anyFilledFrom (s : List Cell) (e : ℕ) : Bool :=
  (s.drop e).any (· == Cell.filled)

/-- Survivor filter of `recursive_solve`: the `okay` loop plus the trailing
check `end <= right and numpy.any(slice[end:] == FILLED)`. -/
def survivesR (s : List Cell) (right : ℕ) (hints : List ℕ) (p : List ℕ) : Bool :=
  match okEnd s 0 (p.zip hints) with
  | none => false
  | some e => if e ≤ right then !(anyFilledFrom s e) else true

/-- Survivor filter of `slice_is_legal`: identical to `survivesR` except that
its trailing check is `end < right` (strict). -/
def survivesL (s : List Cell) (right : ℕ) (hints : List ℕ) (p : List ℕ) : Bool :=
  match okEnd s 0 (p.zip hints) with
  | none => false
  | some e => if e < right then !(anyFilledFrom s e) else true

/-- The placements surviving `recursive_solve`'s filter, in generation order. -/
def survivorsR (s : List Cell) (left right : ℕ) (hints : List ℕ) : List (List ℕ) :=
  (getAllPositions left right hints).filter (survivesR s right hints)

/-- `Board.slice_is_legal`.  With empty hints the function returns `True` when
no cell is FILLED but calls `sys.exit(1)` otherwise, modelled as `.error ()`.
With hints it scans the placements and returns `True` at the first survivor
of its filter, `False` when none survives. -/
def sliceIsLegal (s : List Cell) (hints : List ℕ) : Except Unit Bool :=
  if hints.isEmpty then
    if s.any (· == Cell.filled) then .error () else .ok true
  else
    let t := slTrim s
    .ok ((getAllPositions t.1 t.2.1 hints).any (survivesL s t.2.1 hints))

/-- Inner loop of the forced commit (`recursive_solve` lines marked
"force this position if requested"): `for x in range(pos, pos+size)`, turning
UNKNOWN cells FILLED and recording them.  Out-of-range indices (impossible in
the Python flow, which always stays within the slice) are skipped. -/
def fillCells : List Cell → List ℕ → ℕ → ℕ → List Cell × List ℕ
  | s, ch, _pos, 0 => (s, ch)
  | s, ch, pos, size + 1 =>
    if s.get? pos = some Cell.unknown then
      fillCells (s.set pos Cell.filled) (ch ++ [pos]) (pos + 1) size
    else fillCells s ch (pos + 1) size

/-- Blocks pass of the forced commit: the outer `for x in range(len(hints))`
loop over the `(pos, size)` pairs. -/
def fillBlocksGo : List Cell → List ℕ → List (ℕ × ℕ) → List Cell × List ℕ
  | s, ch, [] => (s, ch)
  | s, ch, (pos, size) :: rest =>
    let t := fillCells s ch pos size
    fillBlocksGo t.1 t.2 rest

/-- A `for x in range(x0, x0+n)` loop turning UNKNOWN cells BLANK and
recording them; used by the forced commit (`range(left, right)`) and the
completion re-check (`range(full_width)`). -/
def blankRange : List Cell → List ℕ → ℕ → ℕ → List Cell × List ℕ
  | s, ch, _x, 0 => (s, ch)
  | s, ch, x, n + 1 =>
    if s.get? x = some Cell.unknown then
      blankRange (s.set x Cell.blank) (ch ++ [x]) (x + 1) n
    else blankRange s ch (x + 1) n

/-- The whole forced commit of `recursive_solve`: fill the placement's blocks,
then blank remaining UNKNOWN cells over `range(left, right)` (note: the cell
at index `right` itself is not visited, exactly as in the source). -/
def applyForce (s : List Cell) (left right : ℕ) (hints : List ℕ) (p : List ℕ) :
    List Cell × List ℕ :=
  let t := fillBlocksGo s [] (p.zip hints)
  blankRange t.1 t.2 left (right - left)

/-- One block's contribution to `fill_count` (`fill_count[x] += 1` over
`range(pos, pos+size)`). -/
def bumpFill : List ℕ → ℕ → ℕ → List ℕ
  | fc, _pos, 0 => fc
  | fc, pos, size + 1 => bumpFill (fc.set pos (fc.getD pos 0 + 1)) (pos + 1) size

/-- All blocks' contributions to `fill_count` for one surviving placement. -/
def addFill (fc : List ℕ) : List (ℕ × ℕ) → List ℕ
  | [] => fc
  | (pos, size) :: rest => addFill (bumpFill fc pos size) rest

/-- Result of the enumeration loop of `recursive_solve`: either the forced
commit fired (early `return`), or the loop ran to completion with the final
`pos_count` and `fill_count`. -/
inductive RecOut where
  | forcedOut (s : List Cell) (changed : List ℕ) (posCount : ℕ)
  | counted (posCount : ℕ) (fillCount : List ℕ)
deriving DecidableEq, Repr

/-- The `for fill_pos in Board.get_all_positions(...)` loop of
`recursive_solve`: filter each placement with `survivesR`; on a survivor,
commit it if `pos_count == force`, otherwise bump `pos_count` and
`fill_count`. -/
def recLoop (s : List Cell) (left right : ℕ) (hints : List ℕ) (force : ℤ) :
    List (List ℕ) → ℕ → List ℕ → RecOut
  | [], pc, fc => .counted pc fc
  | p :: rest, pc, fc =>
    if survivesR s right hints p then
      if (pc : ℤ) = force then
        let t := applyForce s left right hints p
        .forcedOut t.1 t.2 pc
      else recLoop s left right hints force rest (pc + 1) (addFill fc (p.zip hints))
    else recLoop s left right hints force rest pc fc

/-- Final pass of `recursive_solve`: any still-UNKNOWN cell filled in every
surviving placement becomes FILLED, one filled in none becomes BLANK. -/
def intersectAux (pc : ℕ) (fc : List ℕ) : List Cell → ℕ → List Cell × List ℕ
  | [], _x => ([], [])
  | c :: rest, x =>
    let t := intersectAux pc fc rest (x + 1)
    if c = Cell.unknown then
      if fc.getD x 0 = pc then (Cell.filled :: t.1, x :: t.2)
      else if fc.getD x 0 = 0 then (Cell.blank :: t.1, x :: t.2)
      else (c :: t.1, t.2)
    else (c :: t.1, t.2)

/-- `sum(hints) + len(hints) - 1` as a Python int (can be `-1` for no hints). -/
def hintsWidth (hints : List ℕ) : ℤ :=
  (hints.sum : ℤ) + hints.length - 1

/-- `max(hints)` (Python raises on an empty list; callers guarantee hints are
non-empty, and we default to 0). -/
def maxHint (hints : List ℕ) : ℕ :=
  hints.foldl max 0

/-- `Board.recursive_solve(slice, hints, rowcol, available, left, right, force)`
minus the logging.  Returns `(slice, changed_cell_indexes, possible_moves)`;
the slice is returned since our embedding is functional where Python mutates
the numpy view in place. -/
def recursiveSolve (s : List Cell) (hints : List ℕ) (available left right : ℕ)
    (force : ℤ) : Except SolveErr (List Cell × List ℕ × ℕ) :=
  if ¬ s.any (fun c => c ≠ Cell.unknown) ∧
      (available : ℤ) - hintsWidth hints ≥ (maxHint hints : ℤ) then
    .ok (s, [], 99)
  else
    match recLoop s left right hints force (getAllPositions left right hints) 0
        (List.replicate s.length 0) with
    | .forcedOut s' ch pc => .ok (s', ch, pc)
    | .counted pc fc =>
      if pc = 0 then .error .noSolutions
      else
        let t := intersectAux pc fc s 0
        .ok (t.1, t.2, pc)

/-- Increment the last entry of `found` (`found[idx] += 1`). -/
def bumpLast : List ℕ → List ℕ
  | [] => []
  | [n] => [n + 1]
  | n :: rest => n :: bumpLast rest

/-- The completion re-check scan of `solve_slice` ("check if line is done from
the big hammer"): walk the slice accumulating the FILLED run lengths in
`found`; raise when a new run would exceed the hint count; `break` (returning
the partial `found`) when a completed run mismatches its hint. -/
def scanRuns (hints : List ℕ) : List Cell → Bool → List ℕ → Except SolveErr (List ℕ)
  | [], _fills, found => .ok found
  | c :: rest, fills, found =>
    if fills then
      if c = Cell.filled then scanRuns hints rest true (bumpLast found)
      else
        if found.getLast? ≠ hints.get? (found.length - 1) then .ok found
        else scanRuns hints rest false found
    else
      if c = Cell.filled then
        if hints.length ≤ found.length then .error .exceedsHints
        else scanRuns hints rest true (found ++ [1])
      else scanRuns hints rest false found

/-- Inner write of the exact-fit path: `for x in range(left, left+hint)`,
setting any non-FILLED cell FILLED (this deliberately overwrites BLANK cells,
mirroring the source). -/
def forceFillCells : List Cell → List ℕ → ℕ → ℕ → List Cell × List ℕ
  | s, ch, _pos, 0 => (s, ch)
  | s, ch, pos, n + 1 =>
    match s.get? pos with
    | some Cell.filled => forceFillCells s ch (pos + 1) n
    | some _ => forceFillCells (s.set pos Cell.filled) (ch ++ [pos]) (pos + 1) n
    | none => forceFillCells s ch (pos + 1) n

/-- Exact-fit path of `solve_slice` (`hints_total == available`): place the
blocks left to right from `left` with exactly one BLANK between, recording
only cells that actually change. -/
def exactFitGo : List Cell → List ℕ → ℕ → List ℕ → List Cell × List ℕ
  | s, ch, _left, [] => (s, ch)
  | s, ch, left, h :: hs =>
    let t := forceFillCells s ch left h
    let left1 := left + h
    if left1 < t.1.length then
      match t.1.get? left1 with
      | some Cell.blank => exactFitGo t.1 t.2 (left1 + 1) hs
      | some _ => exactFitGo (t.1.set left1 Cell.blank) (t.2 ++ [left1]) (left1 + 1) hs
      | none => exactFitGo t.1 t.2 (left1 + 1) hs
    else exactFitGo t.1 t.2 left1 hs

/-- `solve_slice`'s exact-fit path entry point. -/
def exactFit (s : List Cell) (left : ℕ) (hints : List ℕ) : List Cell × List ℕ :=
  exactFitGo s [] left hints

/-- Return value of `solve_slice`: `(changed_indexes, valid_moves, done)` plus
the (functionally) updated slice. -/
structure SliceResult where
  slice : List Cell
  changed : List ℕ
  validMoves : ℕ
  done : Bool
deriving DecidableEq, Repr

/-- `Board.solve_slice(slice, hints, rowcol, force)` minus the logging.
Order of rules follows the source: rule "zero" (no hints), rule "one"
(single hint spanning the full width), bounds trim with the degenerate
`available == 0` early return, the too-large contradiction, the exact-fit
path, then `recursive_solve` followed by the completion re-check. -/
def solveSlice (s : List Cell) (hints : List ℕ) (force : ℤ) :
    Except SolveErr SliceResult :=
  let fullWidth := s.length
  if hints.isEmpty then
    .ok ⟨List.replicate fullWidth Cell.blank, List.range fullWidth, 0, true⟩
  else if hints.length = 1 ∧ hints.get? 0 = some fullWidth then
    .ok ⟨List.replicate fullWidth Cell.filled, List.range fullWidth, 0, true⟩
  else
    let t := slTrim s
    let left := t.1
    let right := t.2.1
    let available := t.2.2
    if available = 0 then .ok ⟨s, [], 0, true⟩
    else if hintsWidth hints > (available : ℤ) then .error .hintsTooLarge
    else if hintsWidth hints = (available : ℤ) then
      let u := exactFit s left hints
      .ok ⟨u.1, u.2, 0, true⟩
    else
      match recursiveSolve s hints available left right force with
      | .error e => .error e
      | .ok (s', ch, validMoves) =>
        if ch.isEmpty then .ok ⟨s', ch, validMoves, false⟩
        else
          match scanRuns hints s' false [] with
          | .error e => .error e
          | .ok found =>
            if found = hints then
              let u := blankRange s' ch 0 s'.length
              .ok ⟨u.1, u.2, validMoves, true⟩
            else .ok ⟨s', ch, validMoves, false⟩

/-- The puzzle data the solver consumes (class `Config`): dimensions and the
per-row / per-column hint lists. -/
structure PCConfig where
  rown : ℕ
  coln : ℕ
  rows : List (List ℕ)
  cols : List (List ℕ)
deriving DecidableEq, Repr

/-- Board state (class `Board`): the grid as a row-major list of rows plus the
per-line bookkeeping arrays.  numpy uint8 0/1 flags become `Bool`. -/
structure BoardState where
  step : ℕ
  grid : List (List Cell)
  rowSolved : List Bool
  colSolved : List Bool
  rowChanged : List Bool
  colChanged : List Bool
  rowMoves : List ℕ
  colMoves : List ℕ
deriving DecidableEq, Repr

/-- `Board.blank()`.  Note the source allocates `col_changed` and `col_moves`
with `config.rown` (not `coln`); the translation reproduces that. -/
def boardBlank (rown coln : ℕ) : BoardState where
  step := 1
  grid := List.replicate rown (List.replicate coln Cell.unknown)
  rowSolved := List.replicate rown false
  colSolved := List.replicate coln false
  rowChanged := List.replicate rown true
  colChanged := List.replicate rown true
  rowMoves := List.replicate rown 0
  colMoves := List.replicate rown 0

/-- `self.grid[y]` (a numpy row view; our embedding reads it out and writes it
back instead of aliasing). -/
def getRow (g : List (List Cell)) (y : ℕ) : List Cell :=
  g.getD y []

/-- `self.grid[:,x]` (a numpy column view, read out). -/
def getCol (g : List (List Cell)) (x : ℕ) : List Cell :=
  g.map (fun row => row.getD x Cell.unknown)

/-- Write a column back into the grid (`self.grid[:,x] = col`). -/
def setCol (g : List (List Cell)) (x : ℕ) (col : List Cell) : List (List Cell) :=
  List.zipWith (fun row c => row.set x c) g col

/-- `for idx in changed: flags[idx] = True` (the cross-axis dirty marking). -/
def setAllTrue (flags : List Bool) : List ℕ → List Bool
  | [] => flags
  | i :: rest => setAllTrue (flags.set i true) rest

/-- One iteration of the row loop of `Board.solve_next`.  The folded state is
`(board, changes, rows_done)`. -/
def solveNextRow (cfg : PCConfig) (st : BoardState × Bool × ℕ) (y : ℕ) :
    Except SolveErr (BoardState × Bool × ℕ) :=
  let b := st.1
  let changes := st.2.1
  let rowsDone := st.2.2
  if b.rowSolved.getD y false then .ok (b, changes, rowsDone + 1)
  else if ¬ b.rowChanged.getD y false then .ok (b, changes, rowsDone)
  else
    match solveSlice (getRow b.grid y) (cfg.rows.getD y []) (-1) with
    | .error e => .error e
    | .ok res =>
      let b1 := { b with rowMoves := b.rowMoves.set y res.validMoves }
      let b2 :=
        if res.changed.isEmpty then b1
        else
          { b1 with
            grid := b1.grid.set y res.slice
            rowChanged := b1.rowChanged.set y true
            colChanged := setAllTrue b1.colChanged res.changed }
      let changes1 := changes || !res.changed.isEmpty
      if res.done then
        .ok ({ b2 with rowSolved := b2.rowSolved.set y true }, changes1, rowsDone + 1)
      else if ¬ res.slice.any (fun c => c = Cell.unknown) then
        .ok ({ b2 with rowSolved := b2.rowSolved.set y true }, changes1, rowsDone + 1)
      else .ok (b2, changes1, rowsDone)

/-- One iteration of the column loop of `Board.solve_next`. -/
def solveNextCol (cfg : PCConfig) (st : BoardState × Bool × ℕ) (x : ℕ) :
    Except SolveErr (BoardState × Bool × ℕ) :=
  let b := st.1
  let changes := st.2.1
  let colsDone := st.2.2
  if b.colSolved.getD x false then .ok (b, changes, colsDone + 1)
  else if ¬ b.colChanged.getD x false then .ok (b, changes, colsDone)
  else
    match solveSlice (getCol b.grid x) (cfg.cols.getD x []) (-1) with
    | .error e => .error e
    | .ok res =>
      let b1 := { b with colMoves := b.colMoves.set x res.validMoves }
      let b2 :=
        if res.changed.isEmpty then b1
        else
          { b1 with
            grid := setCol b1.grid x res.slice
            colChanged := b1.colChanged.set x true
            rowChanged := setAllTrue b1.rowChanged res.changed }
      let changes1 := changes || !res.changed.isEmpty
      if res.done then
        .ok ({ b2 with colSolved := b2.colSolved.set x true }, changes1, colsDone + 1)
      else if ¬ res.slice.any (fun c => c = Cell.unknown) then
        .ok ({ b2 with colSolved := b2.colSolved.set x true }, changes1, colsDone + 1)
      else .ok (b2, changes1, colsDone)

/-- `Board.solve_next`: the propagation round.  Returns the updated board and
the source's `(changed?, done?, dead?)` triple.  (The source's `board.step
+= 1` touches the module-level `board`, which is the same object as `self`
whenever `solve_next` is invoked, so it is `self.step + 1` here.) -/
def solveNext (cfg : PCConfig) (b : BoardState) :
    Except SolveErr (BoardState × Bool × Bool × Bool) :=
  let b0 := { b with step := b.step + 1 }
  match (List.range cfg.rown).foldlM (solveNextRow cfg) (b0, false, 0) with
  | .error e => .error e
  | .ok st1 =>
    match (List.range cfg.coln).foldlM (solveNextCol cfg) (st1.1, st1.2.1, 0) with
    | .error e => .error e
    | .ok st2 =>
      let allDone := decide (st1.2.2 = cfg.rown) && decide (st2.2.2 = cfg.coln)
      .ok (st2.1, st2.2.1, allDone, false)

/-- `max(self.row_moves + self.col_moves)` in `force_random_move`.  Both
operands are numpy arrays, so `+` is ELEMENTWISE addition (not list
concatenation) and `max` is the maximum entry of the summed array (Python
raises on an empty array; boards have at least one row). -/
def maxChoices (rowMoves colMoves : List ℕ) : ℕ :=
  (List.zipWith (· + ·) rowMoves colMoves).foldl max 0

/-- The weighted `choices` list built by `force_random_move` before sorting:
`(weight, y)` for unsolved rows then `(weight, x + 1000)` for unsolved
columns, with `weight = max_choices - moves` (numpy uint32 arithmetic; the
subtraction cannot underflow because `max_choices` dominates every entry). -/
def forceChoices (cfg : PCConfig) (b : BoardState) : List (ℕ × ℕ) :=
  let mc := maxChoices b.rowMoves b.colMoves
  ((List.range cfg.rown).filter (fun y => !(b.rowSolved.getD y false))).map
      (fun y => (mc - b.rowMoves.getD y 0, y)) ++
    ((List.range cfg.coln).filter (fun x => !(b.colSolved.getD x false))).map
      (fun x => (mc - b.colMoves.getD x 0, x + 1000))

/-- Weights as claim C4 words them: the maximum `valid_placement_count` over
all UNSOLVED lines (rows and columns together, a plain-list maximum), minus
the line's own count.  This is the claim-side definition used only to compare
against `forceChoices`. -/
def claimedChoices (cfg : PCConfig) (b : BoardState) : List (ℕ × ℕ) :=
  let unsolved :=
    ((List.range cfg.rown).filter (fun y => !(b.rowSolved.getD y false))).map
        (fun y => b.rowMoves.getD y 0) ++
      ((List.range cfg.coln).filter (fun x => !(b.colSolved.getD x false))).map
        (fun x => b.colMoves.getD x 0)
  let mu := unsolved.foldl max 0
  ((List.range cfg.rown).filter (fun y => !(b.rowSolved.getD y false))).map
      (fun y => (mu - b.rowMoves.getD y 0, y)) ++
    ((List.range cfg.coln).filter (fun x => !(b.colSolved.getD x false))).map
      (fun x => (mu - b.colMoves.getD x 0, x + 1000))

/-- Errors escaping `force_random_move`: a `SolveError` from `solve_slice`, or
the `sys.exit(1)` inside `slice_is_legal`. -/
inductive ForceErr where
  | solveErr (e : SolveErr)
  | exited
deriving DecidableEq, Repr

/-- The `for idx in changed_idx: if not Board.slice_is_legal(...)` loop: true
when every crossed line is legal, false at the first illegal one. -/
def allLegalGo : List (List Cell × List ℕ) → Except Unit Bool
  | [] => .ok true
  | (s, h) :: rest =>
    match sliceIsLegal s h with
    | .error e => .error e
    | .ok true => allLegalGo rest
    | .ok false => .ok false

/-- The row branch of `force_random_move` after a `(weight, which)` choice has
been drawn (`which < 1000`): re-solve the row with `force = firstForce` (the
recovered `weight`, i.e. the cached move count), then with the random index
`mv`, write the row back, validate every crossed column, and on success mark
`row_solved[which]` when `done`.  `.ok none` models the revert-and-retry
(`okay = False`) path; the two random draws are parameters. -/
def forceApplyRow (cfg : PCConfig) (b : BoardState) (which : ℕ)
    (firstForce mv : ℤ) : Except ForceErr (Option BoardState) :=
  match solveSlice (getRow b.grid which) (cfg.rows.getD which []) firstForce with
  | .error e => .error (.solveErr e)
  | .ok r1 =>
    match solveSlice r1.slice (cfg.rows.getD which []) mv with
    | .error e => .error (.solveErr e)
    | .ok r2 =>
      let g := b.grid.set which r2.slice
      match allLegalGo (r2.changed.map (fun idx => (getCol g idx, cfg.cols.getD idx []))) with
      | .error _ => .error .exited
      | .ok false => .ok none
      | .ok true =>
        let b1 := { b with grid := g }
        .ok (some (if r2.done then { b1 with rowSolved := b1.rowSolved.set which true } else b1))

/-- The column branch of `force_random_move` (`which >= 1000`, after the
`which -= 1000` adjustment).  Note the final bookkeeping is the same
`self.row_solved[which] = True` line as the row branch — the source marks the
ROW of that index solved even though a column was forced. -/
def forceApplyCol (cfg : PCConfig) (b : BoardState) (which : ℕ)
    (firstForce mv : ℤ) : Except ForceErr (Option BoardState) :=
  match solveSlice (getCol b.grid which) (cfg.cols.getD which []) firstForce with
  | .error e => .error (.solveErr e)
  | .ok r1 =>
    match solveSlice r1.slice (cfg.cols.getD which []) mv with
    | .error e => .error (.solveErr e)
    | .ok r2 =>
      let g := setCol b.grid which r2.slice
      match allLegalGo (r2.changed.map (fun idx => (getRow g idx, cfg.rows.getD idx []))) with
      | .error _ => .error .exited
      | .ok false => .ok none
      | .ok true =>
        let b1 := { b with grid := g }
        .ok (some (if r2.done then { b1 with rowSolved := b1.rowSolved.set which true } else b1))

/-- Concrete 2-by-2 puzzle (every row and column hinted `[1]`) used to
exercise a propagation round that changes nothing. -/
def c1Cfg : PCConfig :=
  ⟨2, 2, [[1], [1]], [[1], [1]]⟩

/-- Concrete 2-by-2 configuration for the weighting computation. -/
def c4Cfg : PCConfig :=
  ⟨2, 2, [[1], [1]], [[1], [1]]⟩

/-- A stalled 2-by-2 board with cached move counts rows `[3, 5]`, columns
`[4, 2]`, nothing solved. -/
def c4Board : BoardState where
  step := 1
  grid := List.replicate 2 (List.replicate 2 Cell.unknown)
  rowSolved := [false, false]
  colSolved := [false, false]
  rowChanged := [true, true]
  colChanged := [true, true]
  rowMoves := [3, 5]
  colMoves := [4, 2]

/-- Concrete 1-by-1 puzzle for the forced-move bookkeeping. -/
def c9Cfg : PCConfig :=
  ⟨1, 1, [[1]], [[1]]⟩

/-- The board produced by one propagation round of `c1Cfg` on the blank 2-by-2
board (no cell changes; both move caches pick up the shortcut value 99). -/
def c1After : BoardState where
  step := 2
  grid := List.replicate 2 (List.replicate 2 Cell.unknown)
  rowSolved := [false, false]
  colSolved := [false, false]
  rowChanged := [true, true]
  colChanged := [true, true]
  rowMoves := [99, 99]
  colMoves := [99, 99]

/-- Dirty-flag monotonicity relation on the orchestrator's folded state: every
row/column flag that is true before stays true after. -/
def FlagsMono (a b : BoardState × Bool × ℕ) : Prop :=
  (∀ y, a.1.rowChanged.getD y false = true → b.1.rowChanged.getD y false = true) ∧
  (∀ x, a.1.colChanged.getD x false = true → b.1.colChanged.getD x false = true)

/-- Cell `i` lies inside one of the `(pos, size)` blocks. -/
def coveredBy (pairs : List (ℕ × ℕ)) (i : ℕ) : Prop :=
  ∃ q ∈ pairs, q.1 ≤ i ∧ i < q.1 + q.2

instance (pairs : List (ℕ × ℕ)) (i : ℕ) : Decidable (coveredBy pairs i) :=
  List.decidableBEx _ pairs

/-- The `(pos, size)` blocks are in order: each block starts at or after the
running `end` (one past the previous block). -/
def PairsChain : ℕ → List (ℕ × ℕ) → Prop
  | _, [] => True
  | e0, (pos, sz) :: rest => e0 ≤ pos ∧ PairsChain (pos + sz) rest

/-- The structural description of the placements `get_all_positions`
enumerates: each start position is at least the predecessor's end plus one
gap (the first at least `lo`), and the final block ends by `right + 1`. -/
def Placed (right : ℤ) : ℕ → List ℕ → List ℕ → Prop
  | lo, [p], [h] => lo ≤ p ∧ (p : ℤ) + h ≤ right + 1
  | lo, p :: p2 :: ps, h :: h2 :: hs =>
    lo ≤ p ∧ Placed right (p + h + 1) (p2 :: ps) (h2 :: hs)
  | _, _, _ => False

/-- The sequence of FILLED run lengths of a slice (what the completion
re-check of `solve_slice` accumulates in `found`): consecutive FILLED cells
merge into one run; BLANK and UNKNOWN cells separate runs. -/
def runsOf : List Cell → List ℕ
  | [] => []
  | c :: rest =>
    if c = Cell.filled then
      match rest, runsOf rest with
      | Cell.filled :: _, n :: ns => (n + 1) :: ns
      | _, l => 1 :: l
    else runsOf rest

/-- Canonical shape of the non-blank part of a solved line: the hints laid
out as FILLED runs separated by at least one BLANK, with trailing BLANK
padding.  A slice with no UNKNOWN cell whose FILLED runs spell the hints is
exactly a run of leading BLANKs followed by such a core. -/
inductive SolvedSeg : List ℕ → List Cell → Prop where
  | last (h z : ℕ) (hpos : 1 ≤ h) :
      SolvedSeg [h] (List.replicate h Cell.filled ++ List.replicate z Cell.blank)
  | step (h g : ℕ) (hs : List ℕ) (t : List Cell) (hpos : 1 ≤ h) (hg : 1 ≤ g)
      (ht : SolvedSeg hs t) :
      SolvedSeg (h :: hs)
        (List.replicate h Cell.filled ++ List.replicate g Cell.blank ++ t)

/-- Running final `end` of a block list (the value `okEnd` returns when all
checks pass). -/
def pairsEnd : ℕ → List (ℕ × ℕ) → ℕ
  | e0, [] => e0
  | _, (pos, sz) :: rest => pairsEnd (pos + sz) rest

end PyCross

namespace PyCross

/-- Every member of `intRangeIncl lo hi` is some `lo + i` with
`(lo + i : ℤ) ≤ hi`, and conversely. -/
theorem mem_intRangeIncl {lo : ℕ} {hi : ℤ} {p : ℕ} :
    p ∈ intRangeIncl lo hi ↔ lo ≤ p ∧ (p : ℤ) ≤ hi := by
  unfold intRangeIncl
  simp only [List.mem_map, List.mem_range]
  constructor
  · rintro ⟨i, hi', rfl⟩
    have h2 : (i : ℤ) < hi + 1 - lo := Int.lt_toNat.mp hi'
    omega
  · rintro ⟨h1, h2⟩
    refine ⟨p - lo, ?_, by omega⟩
    rw [Int.lt_toNat]
    omega

/-- Membership in the enumeration, single-hint case. -/
theorem mem_positionsFrom_single {lo h : ℕ} {r : ℤ} {rs : List ℤ} {q : List ℕ} :
    q ∈ positionsFrom lo [h] (r :: rs) ↔ ∃ p, q = [p] ∧ lo ≤ p ∧ (p : ℤ) ≤ r := by
  simp only [positionsFrom, List.mem_map, mem_intRangeIncl]
  constructor
  · rintro ⟨p, hp, rfl⟩
    exact ⟨p, rfl, hp⟩
  · rintro ⟨p, rfl, hp⟩
    exact ⟨p, hp, rfl⟩

/-- Membership in the enumeration, at least two hints: a head position in
`[lo, r]` followed by a member of the recursive enumeration started at
`p + h + 1`. -/
theorem mem_positionsFrom_cons {lo h h2 : ℕ} {hs : List ℕ} {r : ℤ} {rs : List ℤ}
    {q : List ℕ} :
    q ∈ positionsFrom lo (h :: h2 :: hs) (r :: rs) ↔
      ∃ p t, q = p :: t ∧ lo ≤ p ∧ (p : ℤ) ≤ r ∧
        t ∈ positionsFrom (p + h + 1) (h2 :: hs) rs := by
  simp only [positionsFrom, List.mem_flatMap, List.mem_map, mem_intRangeIncl]
  constructor
  · rintro ⟨p, hp, t, ht, rfl⟩
    exact ⟨p, t, rfl, hp.1, hp.2, ht⟩
  · rintro ⟨p, t, rfl, h1, h2', ht⟩
    exact ⟨p, ⟨h1, h2'⟩, t, ht, rfl⟩

/-- The legality filter is weaker than the solver filter: any placement that
survives `recursive_solve`'s checks also survives `slice_is_legal`'s. -/
theorem survivesR_imp_survivesL {s : List Cell} {right : ℕ} {hints : List ℕ}
    {p : List ℕ} (h : survivesR s right hints p = true) :
    survivesL s right hints p = true := by
  cases he : okEnd s 0 (p.zip hints) with
  | none => simp [survivesR, he] at h
  | some e =>
    simp only [survivesR, he] at h
    simp only [survivesL, he]
    by_cases hlt : e < right
    · rw [if_pos (le_of_lt hlt)] at h
      rw [if_pos hlt]
      exact h
    · rw [if_neg hlt]

/-- C2, counterexample: claim C2 states `slice_is_legal` returns true iff at
least one placement survives `recursive_solve`'s filter.  On the slice
`[FILLED, FILLED]` with hints `[1]` no placement survives the solver filter
(and `recursive_solve` raises "no possible solutions"), yet `slice_is_legal`
answers true: its trailing check `end < right` misses the FILLED cell sitting
exactly at index `right`. -/
theorem c2_legal_oracle_counterexample :
    sliceIsLegal [Cell.filled, Cell.filled] [1] = .ok true ∧
    survivorsR [Cell.filled, Cell.filled]
        (slTrim [Cell.filled, Cell.filled]).1
        (slTrim [Cell.filled, Cell.filled]).2.1 [1] = [] ∧
    recursiveSolve [Cell.filled, Cell.filled] [1] 2 0 1 (-1) =
      .error SolveErr.noSolutions :=
  ⟨rfl, rfl, rfl⟩

/-- C2, amended: with non-empty hints, `slice_is_legal` answers true whenever
at least one placement survives `recursive_solve`'s consistency filter (the
converse fails, see the counterexample: the oracle's trailing check is
`end < right` where the solver's is `end <= right`).  With empty hints it
returns true iff no cell is FILLED (on a FILLED cell it exits the process
instead of returning false). -/
theorem c2_legal_oracle_amended (s : List Cell) (hints : List ℕ) :
    (hints ≠ [] →
      survivorsR s (slTrim s).1 (slTrim s).2.1 hints ≠ [] →
      sliceIsLegal s hints = .ok true) ∧
    (hints = [] →
      (sliceIsLegal s hints = .ok true ↔ s.any (· == Cell.filled) = false)) := by
  constructor
  · intro hne hsur
    obtain ⟨p, hp⟩ := List.exists_mem_of_ne_nil _ hsur
    have hp' := List.mem_filter.mp hp
    have hleg : (getAllPositions (slTrim s).1 (slTrim s).2.1 hints).any
        (survivesL s (slTrim s).2.1 hints) = true :=
      List.any_eq_true.mpr ⟨p, hp'.1, survivesR_imp_survivesL hp'.2⟩
    simp only [sliceIsLegal, List.isEmpty_iff, hne, if_false, hleg]
  · rintro rfl
    by_cases ha : s.any (· == Cell.filled) = true
    · simp [sliceIsLegal, ha]
    · rw [Bool.not_eq_true] at ha
      simp [sliceIsLegal, ha]

/-- C2 witness: a line with survivors where the amended implication fires. -/
theorem c2_legal_oracle_amended_witness :
    sliceIsLegal [Cell.unknown, Cell.unknown] [1] = .ok true :=
  (c2_legal_oracle_amended [Cell.unknown, Cell.unknown] [1]).1 (by decide) (by decide)

/-- C6: on a 2-row, 3-column puzzle the fresh board's grid is all UNKNOWN,
nothing is solved, rows are all dirty — but `col_changed` and `col_moves`
are allocated with length `rown = 2` instead of `coln = 3` (`Board.blank`
passes `config.rown` to both `numpy.ones`/`numpy.zeros` calls), so the claim
that all `coln` columns start dirty fails. -/
theorem c6_blank_board_col_arrays :
    (boardBlank 2 3).grid = List.replicate 2 (List.replicate 3 Cell.unknown) ∧
    (boardBlank 2 3).rowSolved = [false, false] ∧
    (boardBlank 2 3).colSolved = [false, false, false] ∧
    (boardBlank 2 3).rowChanged = [true, true] ∧
    (boardBlank 2 3).rowMoves = [0, 0] ∧
    (boardBlank 2 3).colChanged.length = 2 ∧
    (boardBlank 2 3).colMoves.length = 2 ∧
    ¬ ((boardBlank 2 3).colChanged.length = 3 ∧ (boardBlank 2 3).colMoves.length = 3) :=
  ⟨rfl, rfl, rfl, rfl, rfl, rfl, rfl, by decide⟩

/-- C10: `solve_slice` silently turns BLANK cells FILLED on two paths.  The
single-hint-spans-full-line fast path fills the whole line over an existing
BLANK (here `[BLANK, UNKNOWN]` with hints `[2]` becomes `[FILLED, FILLED]`),
and the exact-fit path overwrites a BLANK inside a placed block (here cell 1
of `[UNKNOWN, BLANK, UNKNOWN, UNKNOWN]` with hints `[2,1]`).  Neither raises. -/
theorem c10_blank_overwritten_without_error :
    solveSlice [Cell.blank, Cell.unknown] [2] (-1) =
      .ok ⟨[Cell.filled, Cell.filled], [0, 1], 0, true⟩ ∧
    solveSlice [Cell.unknown, Cell.blank, Cell.unknown, Cell.unknown] [2, 1] (-1) =
      .ok ⟨[Cell.filled, Cell.filled, Cell.blank, Cell.filled], [0, 1, 2, 3], 0, true⟩ :=
  ⟨rfl, rfl⟩

/-- C8, counterexample: the claim demands a Contradiction whenever
`sum(hints) + len(hints) - 1` exceeds the trimmed available width.  But when
every cell is already BLANK (`available == 0`) `solve_slice` returns done
quietly, and when the single hint equals the full width the rule-"one" fast
path fires before the bounds check and fills the line, BLANK margin and all. -/
theorem c8_contradiction_counterexample :
    solveSlice [Cell.blank, Cell.blank] [1] (-1) =
      .ok ⟨[Cell.blank, Cell.blank], [], 0, true⟩ ∧
    hintsWidth [1] > ((slTrim [Cell.blank, Cell.blank]).2.2 : ℤ) ∧
    solveSlice [Cell.blank, Cell.unknown, Cell.unknown] [3] (-1) =
      .ok ⟨[Cell.filled, Cell.filled, Cell.filled], [0, 1, 2], 0, true⟩ ∧
    hintsWidth [3] > ((slTrim [Cell.blank, Cell.unknown, Cell.unknown]).2.2 : ℤ) :=
  ⟨rfl, by decide, rfl, by decide⟩

/-- C8, amended: with non-empty hints, provided the single-hint full-width
fast path does not intercept and the trimmed available width is positive,
`sum(hints) + len(hints) - 1 > available` makes `solve_slice` raise the
"hints are larger than available space" SolveError. -/
theorem c8_contradiction_amended (s : List Cell) (hints : List ℕ)
    (h1 : hints ≠ [])
    (h2 : ¬ (hints.length = 1 ∧ hints.get? 0 = some s.length))
    (h3 : 0 < (slTrim s).2.2)
    (h4 : hintsWidth hints > ((slTrim s).2.2 : ℤ)) :
    solveSlice s hints (-1) = .error SolveErr.hintsTooLarge := by
  unfold solveSlice
  rw [if_neg (by simpa [List.isEmpty_iff] using h1), if_neg h2]
  simp only
  rw [if_neg (by omega), if_pos h4]

/-- C8 witness: a length-3 line with hints `[2,2]` raises (2+1+2 = 5 > 3). -/
theorem c8_contradiction_amended_witness :
    solveSlice [Cell.unknown, Cell.unknown, Cell.unknown] [2, 2] (-1) =
      .error SolveErr.hintsTooLarge :=
  c8_contradiction_amended [Cell.unknown, Cell.unknown, Cell.unknown] [2, 2]
    (by decide) (by decide) (by decide) (by decide)

/-- C5, counterexample: re-invoking `solve_slice` on a line already completed
by a fast path does NOT return an empty changed list.  `[BLANK]` with empty
hints is exactly the state rule "zero" leaves behind, and `[FILLED, FILLED]`
with hints `[2]` the state rule "one" leaves behind; both re-invocations
report every index changed again. -/
theorem c5_idempotence_counterexample :
    solveSlice [Cell.blank] [] (-1) = .ok ⟨[Cell.blank], [0], 0, true⟩ ∧
    solveSlice [Cell.filled, Cell.filled] [2] (-1) =
      .ok ⟨[Cell.filled, Cell.filled], [0, 1], 0, true⟩ :=
  ⟨rfl, rfl⟩

/-- C3, counterexample: forcing placement 0 on `[BLANK, UNKNOWN, UNKNOWN,
UNKNOWN]` with hints `[1]` (trimmed bounds `left = 1`, `right = 3`, three
surviving placements) commits `[BLANK, FILLED, BLANK, UNKNOWN]`: the cell at
index `right = 3` stays UNKNOWN because the commit loop blanks
`range(left, right)`, which excludes `right` — contradicting the claim that
every non-block cell in `[left, right]` inclusive becomes Blank and that no
Unknown cell remains there. -/
theorem c3_forced_commit_counterexample :
    slTrim [Cell.blank, Cell.unknown, Cell.unknown, Cell.unknown] = (1, 3, 3) ∧
    survivorsR [Cell.blank, Cell.unknown, Cell.unknown, Cell.unknown] 1 3 [1] =
      [[1], [2], [3]] ∧
    recursiveSolve [Cell.blank, Cell.unknown, Cell.unknown, Cell.unknown] [1] 3 1 3 0 =
      .ok ([Cell.blank, Cell.filled, Cell.blank, Cell.unknown], [1, 2], 0) :=
  ⟨rfl, rfl, rfl⟩

/-- C1, counterexample: a full propagation round on the 2-by-2 puzzle with
hints `[1]` everywhere processes all four dirty, unsolved lines, changes no
cell (`changes = false`), yet leaves every dirty flag set: `solve_next`
never clears `row_changed`/`col_changed`, contradicting "clear the line's
dirty flag ... dirty again only if a crossing solve changed one of its
cells". -/
theorem c1_dirty_flag_counterexample :
    (solveNext c1Cfg (boardBlank 2 2)).map
        (fun r => (r.1.rowChanged, r.1.colChanged, r.2.1)) =
      .ok ([true, true], [true, true], false) :=
  rfl

/-- C4, counterexample: with cached move counts rows `[3, 5]` and columns
`[4, 2]` (nothing solved), the code's `max(self.row_moves + self.col_moves)`
adds the two numpy arrays ELEMENTWISE (sums `[7, 7]`, maximum 7) and assigns
weights `7 - moves`, whereas the claim's "max over all unsolved lines"
is 5 and would assign `5 - moves`. -/
theorem c4_weight_counterexample :
    forceChoices c4Cfg c4Board = [(4, 0), (2, 1), (3, 1000), (5, 1001)] ∧
    claimedChoices c4Cfg c4Board = [(2, 0), (0, 1), (1, 1000), (3, 1001)] ∧
    forceChoices c4Cfg c4Board ≠ claimedChoices c4Cfg c4Board :=
  ⟨rfl, rfl, by decide⟩

/-- C9: the forced-move bookkeeping always targets the row axis.  For both
the row branch and the column branch of `force_random_move`, when the second
`solve_slice` call reports `done` and every crossed line passes the legality
check, the committed board has `row_solved[which]` set and `col_solved`
untouched — in the column case the line's own `col_solved` flag stays
unchanged while the ROW of the same index is marked solved. -/
theorem c9_force_marks_row_axis :
    (∀ (cfg : PCConfig) (b : BoardState) (which : ℕ) (f1 mv : ℤ)
        (r1 r2 : SliceResult),
      solveSlice (getCol b.grid which) (cfg.cols.getD which []) f1 = .ok r1 →
      solveSlice r1.slice (cfg.cols.getD which []) mv = .ok r2 →
      allLegalGo (r2.changed.map (fun idx =>
          (getRow (setCol b.grid which r2.slice) idx, cfg.rows.getD idx []))) = .ok true →
      r2.done = true →
      forceApplyCol cfg b which f1 mv =
        .ok (some { b with grid := setCol b.grid which r2.slice,
                           rowSolved := b.rowSolved.set which true })) ∧
    (∀ (cfg : PCConfig) (b : BoardState) (which : ℕ) (f1 mv : ℤ)
        (r1 r2 : SliceResult),
      solveSlice (getRow b.grid which) (cfg.rows.getD which []) f1 = .ok r1 →
      solveSlice r1.slice (cfg.rows.getD which []) mv = .ok r2 →
      allLegalGo (r2.changed.map (fun idx =>
          (getCol (b.grid.set which r2.slice) idx, cfg.cols.getD idx []))) = .ok true →
      r2.done = true →
      forceApplyRow cfg b which f1 mv =
        .ok (some { b with grid := b.grid.set which r2.slice,
                           rowSolved := b.rowSolved.set which true })) := by
  constructor
  · intro cfg b which f1 mv r1 r2 h1 h2 h3 h4
    simp only [forceApplyCol, h1, h2, h3, h4, if_true]
  · intro cfg b which f1 mv r1 r2 h1 h2 h3 h4
    simp only [forceApplyRow, h1, h2, h3, h4, if_true]

/-- C9 witness: forcing the single column of the 1-by-1 puzzle completes it;
the board comes back with `row_solved = [true]` and `col_solved = [false]`. -/
theorem c9_force_marks_row_axis_witness :
    forceApplyCol c9Cfg (boardBlank 1 1) 0 0 0 =
      .ok (some { boardBlank 1 1 with grid := [[Cell.filled]],
                                      rowSolved := [true] }) :=
  c9_force_marks_row_axis.1 c9Cfg (boardBlank 1 1) 0 0 0
    ⟨[Cell.filled], [0], 0, true⟩ ⟨[Cell.filled], [0], 0, true⟩ rfl rfl rfl rfl

/-- C4, amended: a pair `(w, which)` is one of `force_random_move`'s choices
iff `which` encodes an unsolved row (`which < 1000`) or an unsolved column
(`which - 1000`), with weight `max_choices - moves` where `max_choices` is
the maximum of the elementwise sum `row_moves + col_moves` (numpy array
addition), not the claim's maximum placement count over unsolved lines.
The `rown ≤ 1000` hypothesis reflects the code's own encoding of columns as
`x + 1000`. -/
theorem c4_weights_amended (cfg : PCConfig) (b : BoardState) (w which : ℕ)
    (henc : cfg.rown ≤ 1000) :
    (w, which) ∈ forceChoices cfg b ↔
      (which < 1000 ∧ which < cfg.rown ∧ b.rowSolved.getD which false = false ∧
        w = maxChoices b.rowMoves b.colMoves - b.rowMoves.getD which 0) ∨
      (1000 ≤ which ∧ which - 1000 < cfg.coln ∧
        b.colSolved.getD (which - 1000) false = false ∧
        w = maxChoices b.rowMoves b.colMoves - b.colMoves.getD (which - 1000) 0) := by
  unfold forceChoices
  simp only [List.mem_append, List.mem_map, List.mem_filter, List.mem_range,
    Bool.not_eq_true', Prod.mk.injEq]
  constructor
  · rintro (⟨y, ⟨hy, hs⟩, hw, hwhich⟩ | ⟨x, ⟨hx, hs⟩, hw, hwhich⟩)
    · subst hwhich
      exact Or.inl ⟨by omega, hy, hs, hw.symm⟩
    · subst hwhich
      refine Or.inr ⟨by omega, by omega, ?_, ?_⟩
      · simpa using hs
      · simpa using hw.symm
  · rintro (⟨hlt, hy, hs, hw⟩ | ⟨hge, hx, hs, hw⟩)
    · exact Or.inl ⟨which, ⟨hy, hs⟩, hw.symm, rfl⟩
    · refine Or.inr ⟨which - 1000, ⟨hx, hs⟩, hw.symm, by omega⟩

/-- C4 witness: the unsolved row 0 of the concrete stalled board gets weight
`7 - 3 = 4` (elementwise-sum maximum 7 minus its own count 3). -/
theorem c4_weights_amended_witness :
    ((4 : ℕ), (0 : ℕ)) ∈ forceChoices c4Cfg c4Board :=
  (c4_weights_amended c4Cfg c4Board 4 0 (by decide)).mpr
    (Or.inl (by refine ⟨by decide, by decide, by decide, by decide⟩))

/-- Setting one flag true never turns another flag off. -/
theorem getD_set_true_mono (flags : List Bool) (i y : ℕ)
    (h : flags.getD y false = true) : (flags.set i true).getD y false = true := by
  induction flags generalizing i y with
  | nil => exact h
  | cons f fs ih =>
    cases i with
    | zero =>
      cases y with
      | zero => simp
      | succ y => exact h
    | succ i =>
      cases y with
      | zero => simpa using h
      | succ y =>
        have := ih i y (by simpa using h)
        simpa using this

/-- The cross-axis dirty marking only turns flags on. -/
theorem getD_setAllTrue_mono (idxs : List ℕ) (flags : List Bool) (y : ℕ)
    (h : flags.getD y false = true) :
    (setAllTrue flags idxs).getD y false = true := by
  induction idxs generalizing flags with
  | nil => exact h
  | cons i rest ih => exact ih _ (getD_set_true_mono flags i y h)

/-- One row step of the round never clears a dirty flag. -/
theorem solveNextRow_mono (cfg : PCConfig) (st st' : BoardState × Bool × ℕ)
    (y : ℕ) (h : solveNextRow cfg st y = .ok st') : FlagsMono st st' := by
  simp only [solveNextRow] at h
  split at h
  · cases h
    exact ⟨fun _ hh => hh, fun _ hh => hh⟩
  · split at h
    · cases h
      exact ⟨fun _ hh => hh, fun _ hh => hh⟩
    · split at h
      · exact Except.noConfusion h
      · rename_i res heq
        repeat' split at h
        all_goals cases h
        all_goals
          refine ⟨fun z hz => ?_, fun z hz => ?_⟩ <;>
            first
              | exact hz
              | exact getD_set_true_mono _ _ _ hz
              | exact getD_setAllTrue_mono _ _ _ hz

/-- One column step of the round never clears a dirty flag. -/
theorem solveNextCol_mono (cfg : PCConfig) (st st' : BoardState × Bool × ℕ)
    (x : ℕ) (h : solveNextCol cfg st x = .ok st') : FlagsMono st st' := by
  simp only [solveNextCol] at h
  split at h
  · cases h
    exact ⟨fun _ hh => hh, fun _ hh => hh⟩
  · split at h
    · cases h
      exact ⟨fun _ hh => hh, fun _ hh => hh⟩
    · split at h
      · exact Except.noConfusion h
      · rename_i res heq
        repeat' split at h
        all_goals cases h
        all_goals
          refine ⟨fun z hz => ?_, fun z hz => ?_⟩ <;>
            first
              | exact hz
              | exact getD_set_true_mono _ _ _ hz
              | exact getD_setAllTrue_mono _ _ _ hz

/-- Folding flag-monotone steps over a list of indices is flag-monotone. -/
theorem foldlM_flags_mono {β : Type}
    (f : (BoardState × Bool × ℕ) → ℕ → Except β (BoardState × Bool × ℕ))
    (hf : ∀ st y st', f st y = .ok st' → FlagsMono st st') :
    ∀ (ys : List ℕ) (st st'), ys.foldlM f st = .ok st' → FlagsMono st st' := by
  intro ys
  induction ys with
  | nil =>
    intro st st' h
    simp only [List.foldlM_nil] at h
    cases h
    exact ⟨fun _ hh => hh, fun _ hh => hh⟩
  | cons y ys ih =>
    intro st st' h
    simp only [List.foldlM_cons] at h
    cases hf1 : f st y with
    | error e => rw [hf1] at h; exact Except.noConfusion h
    | ok st1 =>
      rw [hf1] at h
      have m1 := hf st y st1 hf1
      have m2 := ih st1 st' (by simpa using h)
      exact ⟨fun z hz => m2.1 z (m1.1 z hz), fun z hz => m2.2 z (m1.2 z hz)⟩

/-- C1, amended: `solve_next` never clears a dirty flag.  `row_changed` and
`col_changed` are only ever assigned `True` (by a line's own change or a
crossing line's change), so any line dirty before a round is still dirty
after it, whether or not any crossing line changed one of its cells. -/
theorem c1_dirty_flags_amended (cfg : PCConfig) (b b' : BoardState)
    (ch dn dd : Bool) (h : solveNext cfg b = .ok (b', ch, dn, dd)) :
    (∀ y, b.rowChanged.getD y false = true → b'.rowChanged.getD y false = true) ∧
    (∀ x, b.colChanged.getD x false = true → b'.colChanged.getD x false = true) := by
  simp only [solveNext] at h
  split at h
  · exact Except.noConfusion h
  · rename_i st1 h1
    split at h
    · exact Except.noConfusion h
    · rename_i st2 h2
      have m1 := foldlM_flags_mono _ (fun a i a2 => solveNextRow_mono cfg a a2 i) _ _ _ h1
      have m2 := foldlM_flags_mono _ (fun a i a2 => solveNextCol_mono cfg a a2 i) _ _ _ h2
      have hb' : b' = st2.1 := by
        cases h
        rfl
      subst hb'
      exact ⟨fun z hz => m2.1 z (m1.1 z hz), fun z hz => m2.2 z (m1.2 z hz)⟩

/-- C1 witness: after the no-change round on the blank 2-by-2 board, row 0
(dirty before) is still dirty. -/
theorem c1_dirty_flags_amended_witness :
    c1After.rowChanged.getD 0 false = true :=
  (c1_dirty_flags_amended c1Cfg (boardBlank 2 2) c1After false false false rfl).1 0 rfl

/-- Peeling one hint off `sum(hints) + len(hints) - 1`. -/
theorem hintsWidth_cons (h : ℕ) (t : List ℕ) :
    hintsWidth (h :: t) = (h : ℤ) + 1 + hintsWidth t := by
  simp only [hintsWidth, List.sum_cons, List.length_cons]
  push_cast
  ring

/-- One unfolding step of the right-packed bounds at two or more hints. -/
theorem hintsRightPos_cons₂ (right : ℤ) (h h2 : ℕ) (hs : List ℕ) {r : ℤ}
    {rs : List ℤ} (hrec : hintsRightPos right (h2 :: hs) = r :: rs) :
    hintsRightPos right (h :: h2 :: hs) = (r - 1 - h) :: r :: rs := by
  have heq : hintsRightPos right (h :: h2 :: hs) =
      match hintsRightPos right (h2 :: hs) with
      | [] => [right + 1 - (h : ℤ)]
      | r :: rs => (r - 1 - h) :: r :: rs := rfl
  rw [heq, hrec]

/-- The first right-packed bound is `right + 1` minus the hints' packed width. -/
theorem hintsRightPos_head (right : ℤ) (h : ℕ) (hs : List ℕ) :
    ∃ rs, hintsRightPos right (h :: hs) =
      (right + 1 - hintsWidth (h :: hs)) :: rs := by
  induction hs generalizing h with
  | nil =>
    refine ⟨[], ?_⟩
    simp only [hintsRightPos, hintsWidth, List.sum_cons, List.sum_nil,
      List.length_cons, List.length_nil]
    norm_num
  | cons h2 hs ih =>
    obtain ⟨rs2, hrec⟩ := ih h2
    refine ⟨(right + 1 - hintsWidth (h2 :: hs)) :: rs2, ?_⟩
    rw [hintsRightPos_cons₂ right h h2 hs hrec, hintsWidth_cons h (h2 :: hs)]
    congr 1
    ring

/-- When the hints fit, the enumeration is non-empty (the left-packed
placement is generated). -/
theorem positionsFrom_ne_nil (right : ℤ) :
    ∀ (hints : List ℕ) (lo : ℕ), hints ≠ [] →
      (lo : ℤ) ≤ right + 1 - hintsWidth hints →
      positionsFrom lo hints (hintsRightPos right hints) ≠ [] := by
  intro hints
  induction hints with
  | nil => intro lo hne _; exact absurd rfl hne
  | cons h hs ih =>
    intro lo _ hle
    cases hs with
    | nil =>
      obtain ⟨rs, hr⟩ := hintsRightPos_head right h []
      rw [hr]
      have hmem : [lo] ∈ positionsFrom lo [h] ((right + 1 - hintsWidth [h]) :: rs) :=
        mem_positionsFrom_single.mpr ⟨lo, rfl, le_refl lo, by omega⟩
      exact List.ne_nil_of_mem hmem
    | cons h2 hs2 =>
      obtain ⟨rs2, hrec⟩ := hintsRightPos_head right h2 hs2
      have hfull : hintsRightPos right (h :: h2 :: hs2) =
          (right + 1 - hintsWidth (h2 :: hs2) - 1 - h) ::
            (right + 1 - hintsWidth (h2 :: hs2)) :: rs2 :=
        hintsRightPos_cons₂ right h h2 hs2 hrec
      rw [hfull]
      have hw := hintsWidth_cons h (h2 :: hs2)
      have hinner : positionsFrom (lo + h + 1) (h2 :: hs2)
          (hintsRightPos right (h2 :: hs2)) ≠ [] := by
        apply ih (lo + h + 1) (by simp)
        push_cast
        omega
      obtain ⟨q, hq⟩ := List.exists_mem_of_ne_nil _ hinner
      rw [hrec] at hq
      have hmem : (lo :: q) ∈ positionsFrom lo (h :: h2 :: hs2)
          ((right + 1 - hintsWidth (h2 :: hs2) - 1 - h) ::
            (right + 1 - hintsWidth (h2 :: hs2)) :: rs2) :=
        mem_positionsFrom_cons.mpr ⟨lo, q, rfl, le_refl lo, by omega, hq⟩
      exact List.ne_nil_of_mem hmem

/-- The enumeration is empty exactly when the hints cannot fit between the
bounds. -/
theorem positionsFrom_nil_iff (right : ℤ) (hints : List ℕ) (lo : ℕ)
    (hne : hints ≠ []) :
    positionsFrom lo hints (hintsRightPos right hints) = [] ↔
      right + 1 - hintsWidth hints < (lo : ℤ) := by
  constructor
  · intro hnil
    by_contra hlt
    push_neg at hlt
    exact positionsFrom_ne_nil right hints lo hne hlt hnil
  · intro hlt
    by_contra hne2
    obtain ⟨q, hq⟩ := List.exists_mem_of_ne_nil _ hne2
    cases hints with
    | nil => exact hne rfl
    | cons h hs =>
      obtain ⟨rs, hr⟩ := hintsRightPos_head right h hs
      rw [hr] at hq
      cases hs with
      | nil =>
        obtain ⟨p, _, hp1, hp2⟩ := mem_positionsFrom_single.mp hq
        omega
      | cons h2 hs2 =>
        obtain ⟨p, t, _, hp1, hp2, _⟩ := mem_positionsFrom_cons.mp hq
        omega

/-- Pairwise over a flatMap, from pairwise outer, pairwise inner, and a
cross-bucket implication. -/
theorem pairwise_flatMap {α β : Type} {R : β → β → Prop} {S : α → α → Prop}
    {l : List α} {f : α → List β}
    (hl : List.Pairwise S l)
    (hf : ∀ a, a ∈ l → List.Pairwise R (f a))
    (hcross : ∀ a b, a ∈ l → b ∈ l → S a b → ∀ x ∈ f a, ∀ y ∈ f b, R x y) :
    List.Pairwise R (l.flatMap f) := by
  induction l with
  | nil => simp
  | cons a l ih =>
    rw [List.flatMap_cons]
    have hl' := List.pairwise_cons.mp hl
    apply List.pairwise_append.mpr
    refine ⟨hf a (by simp), ?_, ?_⟩
    · exact ih hl'.2 (fun b hb => hf b (by simp [hb]))
        (fun x y hx hy hxy => hcross x y (by simp [hx]) (by simp [hy]) hxy)
    · intro x hx y hy
      obtain ⟨b, hb, hyb⟩ := List.mem_flatMap.mp hy
      exact hcross a b (by simp) (by simp [hb]) (hl'.1 b hb) x hx y hyb

/-- The generated integer range is strictly increasing. -/
theorem pairwise_lt_intRangeIncl (lo : ℕ) (hi : ℤ) :
    List.Pairwise (· < ·) (intRangeIncl lo hi) := by
  unfold intRangeIncl
  refine List.Pairwise.map _ ?_ (List.pairwise_lt_range _)
  intro a b hab
  omega

/-- The enumeration is strictly increasing in lexicographic order (for any
bound list). -/
theorem pairwise_positionsFrom :
    ∀ (hints : List ℕ) (lo : ℕ) (rps : List ℤ),
      List.Pairwise (List.Lex (· < ·)) (positionsFrom lo hints rps) := by
  intro hints
  induction hints with
  | nil => intro lo rps; cases rps <;> exact List.Pairwise.nil
  | cons h hs ih =>
    intro lo rps
    cases hs with
    | nil =>
      cases rps with
      | nil => exact List.Pairwise.nil
      | cons r rs =>
        simp only [positionsFrom]
        refine List.Pairwise.map _ ?_ (pairwise_lt_intRangeIncl lo r)
        intro a b hab
        exact List.Lex.rel hab
    | cons h2 hs2 =>
      cases rps with
      | nil => exact List.Pairwise.nil
      | cons r rs =>
        simp only [positionsFrom]
        apply pairwise_flatMap (pairwise_lt_intRangeIncl lo r)
        · intro p _
          refine List.Pairwise.map _ ?_ (ih (p + h + 1) rs)
          intro t1 t2 h12
          exact List.Lex.cons h12
        · intro p q _ _ hpq x hx y hy
          obtain ⟨t1, _, rfl⟩ := List.mem_map.mp hx
          obtain ⟨t2, _, rfl⟩ := List.mem_map.mp hy
          exact List.Lex.rel hpq

/-- Strict lexicographic order is irreflexive, so pairwise-lex lists have no
duplicates. -/
theorem lex_lt_ne {l1 l2 : List ℕ} (h : List.Lex (· < ·) l1 l2) : l1 ≠ l2 := by
  induction h with
  | nil => simp
  | cons _ ih => simp only [ne_eq, List.cons.injEq, not_and]; intro _; exact ih
  | rel hr => simp only [ne_eq, List.cons.injEq, not_and]; intro he; omega

/-- C7: for any bounds `left <= right` and non-empty hints, the placement
enumerator yields a strictly increasing (lexicographic) duplicate-free
sequence, empty exactly when `sum(hints) + len(hints) - 1` exceeds
`right - left + 1`; and for bounds `[0,4]` with hints `[3]` it yields
exactly `[0], [1], [2]` in that order. -/
theorem c7_enumerator_order (left right : ℕ) (hints : List ℕ)
    (_hbound : left ≤ right) (hne : hints ≠ []) :
    (List.Pairwise (List.Lex (· < ·)) (getAllPositions left right hints) ∧
      (getAllPositions left right hints).Nodup) ∧
    (getAllPositions left right hints = [] ↔
      ((right : ℤ) - left + 1) < hintsWidth hints) ∧
    getAllPositions 0 4 [3] = [[0], [1], [2]] := by
  refine ⟨⟨pairwise_positionsFrom hints left _,
      (pairwise_positionsFrom hints left _).imp (fun hx => lex_lt_ne hx)⟩, ?_, rfl⟩
  rw [getAllPositions, positionsFrom_nil_iff (right : ℤ) hints left hne]
  omega

/-- C7 witness: the concrete enumeration for bounds `[0,4]`, hints `[3]`. -/
theorem c7_enumerator_order_witness :
    getAllPositions 0 4 [3] = [[0], [1], [2]] :=
  (c7_enumerator_order 0 4 [3] (by decide) (by decide)).2.2

/-- Every enumerated placement starts with a position in `[lo, r]`. -/
theorem mem_positionsFrom_head {lo h : ℕ} {hs : List ℕ} {r : ℤ} {rs : List ℤ}
    {p : List ℕ} (hp : p ∈ positionsFrom lo (h :: hs) (r :: rs)) :
    ∃ q t, p = q :: t ∧ lo ≤ q ∧ (q : ℤ) ≤ r := by
  cases hs with
  | nil =>
    obtain ⟨q, rfl, h1, h2⟩ := mem_positionsFrom_single.mp hp
    exact ⟨q, [], rfl, h1, h2⟩
  | cons h2 hs2 =>
    obtain ⟨q, t, rfl, h1, h2', _⟩ := mem_positionsFrom_cons.mp hp
    exact ⟨q, t, rfl, h1, h2'⟩

/-- A start list is generated by `get_all_positions` exactly when it is a
legally packed placement: first start at or after `lo`, consecutive starts
separated by at least hint-plus-gap, last block ending by `right + 1`. -/
theorem mem_getAllPositions_iff_placed (right : ℤ) :
    ∀ (hints : List ℕ) (lo : ℕ) (p : List ℕ), hints ≠ [] →
      (p ∈ positionsFrom lo hints (hintsRightPos right hints) ↔
        Placed right lo p hints) := by
  intro hints
  induction hints with
  | nil => intro lo p hne; exact absurd rfl hne
  | cons h hs ih =>
    intro lo p _
    cases hs with
    | nil =>
      have hrp : hintsRightPos right [h] = [right + 1 - (h : ℤ)] := rfl
      rw [hrp, mem_positionsFrom_single]
      constructor
      · rintro ⟨q, rfl, h1, h2⟩
        exact ⟨h1, by omega⟩
      · intro hpl
        cases p with
        | nil => exact False.elim hpl
        | cons q t =>
          cases t with
          | nil =>
            obtain ⟨h1, h2⟩ := hpl
            exact ⟨q, rfl, h1, by omega⟩
          | cons q2 t2 => exact False.elim hpl
    | cons h2 hs2 =>
      obtain ⟨rs2, hrec⟩ := hintsRightPos_head right h2 hs2
      rw [hintsRightPos_cons₂ right h h2 hs2 hrec, mem_positionsFrom_cons]
      constructor
      · rintro ⟨q, t, rfl, h1, h2', ht⟩
        rw [← hrec] at ht
        have hplt := (ih (q + h + 1) t (by simp)).mp ht
        cases t with
        | nil => exact False.elim hplt
        | cons p2 ps => exact ⟨h1, hplt⟩
      · intro hpl
        cases p with
        | nil => exact False.elim hpl
        | cons q t =>
          cases t with
          | nil => exact False.elim hpl
          | cons p2 ps =>
            obtain ⟨h1, hplt⟩ := hpl
            have ht := (ih (q + h + 1) (p2 :: ps) (by simp)).mpr hplt
            refine ⟨q, p2 :: ps, rfl, h1, ?_, by rw [← hrec]; exact ht⟩
            rw [hrec] at ht
            obtain ⟨q2, t2, heq, hq2lo, hq2hi⟩ := mem_positionsFrom_head ht
            injection heq with he1 _
            subst he1
            omega

/-- A placed start list gives an ordered block chain from any earlier end. -/
theorem placed_chain (right : ℤ) :
    ∀ (p hints : List ℕ) (lo e0 : ℕ), Placed right lo p hints → e0 ≤ lo →
      PairsChain e0 (p.zip hints) := by
  intro p
  induction p with
  | nil => intro hints lo e0 hpl _; cases hints <;> exact False.elim hpl
  | cons q t ih =>
    intro hints lo e0 hpl he
    cases hints with
    | nil => cases t <;> exact False.elim hpl
    | cons h hs =>
      cases t with
      | nil =>
        cases hs with
        | nil =>
          obtain ⟨h1, h2⟩ := hpl
          exact ⟨by omega, trivial⟩
        | cons => exact False.elim hpl
      | cons p2 ps =>
        cases hs with
        | nil => exact False.elim hpl
        | cons h2 hs2 =>
          obtain ⟨h1, hplt⟩ := hpl
          exact ⟨by omega, ih (h2 :: hs2) (q + h + 1) (q + h) hplt (by omega)⟩

/-- If the block loop succeeds on a cons, it succeeds on the tail from the
block's end. -/
theorem okEnd_cons_some {s : List Cell} {e0 e pos sz : ℕ} {rest : List (ℕ × ℕ)}
    (h : okEnd s e0 ((pos, sz) :: rest) = some e) :
    okEnd s (pos + sz) rest = some e := by
  simp only [okEnd] at h
  split at h
  · exact Option.noConfusion h
  · split at h
    · exact Option.noConfusion h
    · exact h

/-- For a placed start list the block loop's final `end` is within
`right + 1`. -/
theorem placed_okEnd_le (right : ℤ) (s : List Cell) :
    ∀ (p hints : List ℕ) (lo e0 e : ℕ), Placed right lo p hints →
      okEnd s e0 (p.zip hints) = some e → (e : ℤ) ≤ right + 1 := by
  intro p
  induction p with
  | nil => intro hints lo e0 e hpl _; cases hints <;> exact False.elim hpl
  | cons q t ih =>
    intro hints lo e0 e hpl hok
    cases hints with
    | nil => cases t <;> exact False.elim hpl
    | cons h hs =>
      have hok' := okEnd_cons_some hok
      cases t with
      | nil =>
        cases hs with
        | nil =>
          obtain ⟨h1, h2⟩ := hpl
          simp only [List.zip_nil_left, okEnd] at hok'
          cases hok'
          omega
        | cons => exact False.elim hpl
      | cons p2 ps =>
        cases hs with
        | nil => exact False.elim hpl
        | cons h2 hs2 =>
          obtain ⟨h1, hplt⟩ := hpl
          exact ih (h2 :: hs2) (q + h + 1) (q + h) e hplt hok'

/-- What a successful block-loop pass guarantees, for an ordered chain of
blocks: the final end is past the start, block cells are never BLANK, cells
before the final end that are in no block are never FILLED, and every block
cell lies before the final end. -/
theorem okEnd_spec (s : List Cell) :
    ∀ (pairs : List (ℕ × ℕ)) (e0 e : ℕ), PairsChain e0 pairs →
      okEnd s e0 pairs = some e →
      e0 ≤ e ∧
      (∀ q ∈ pairs, ∀ i, q.1 ≤ i → i < q.1 + q.2 → s.get? i ≠ some Cell.blank) ∧
      (∀ i, e0 ≤ i → i < e → ¬ coveredBy pairs i → s.get? i ≠ some Cell.filled) ∧
      (∀ i, coveredBy pairs i → i < e) := by
  intro pairs
  induction pairs with
  | nil =>
    intro e0 e _ hok
    simp only [okEnd] at hok
    cases hok
    refine ⟨le_refl _, by simp, ?_, ?_⟩
    · intro i h1 h2; omega
    · intro i hcov; exact absurd hcov (by simp [coveredBy])
  | cons q rest ih =>
    intro e0 e hchain hok
    obtain ⟨pos, sz⟩ := q
    obtain ⟨hch1, hch2⟩ := hchain
    simp only [okEnd] at hok
    split at hok
    · exact Option.noConfusion hok
    · rename_i hgap
      split at hok
      · exact Option.noConfusion hok
      · rename_i hblk
        obtain ⟨ihe, ihb, ihg, ihc⟩ := ih (pos + sz) e hch2 hok
        refine ⟨by omega, ?_, ?_, ?_⟩
        · intro q' hq' i h1 h2
          rcases List.mem_cons.mp hq' with hq' | hq'
          · subst hq'
            intro hget
            have hblk' : ((s.drop pos).take sz).any (· == Cell.blank) = false := by
              rcases Bool.eq_false_or_eq_true
                  (((s.drop pos).take sz).any (· == Cell.blank)) with hb | hb
              · exact absurd hb hblk
              · exact hb
            have hmem : Cell.blank ∈ (s.drop pos).take sz := by
              have hk : ((s.drop pos).take sz).get? (i - pos) = some Cell.blank := by
                rw [List.get?_take (by omega : i - pos < sz), List.get?_drop,
                  show pos + (i - pos) = i by omega]
                exact hget
              exact List.get?_mem hk
            rw [List.any_eq_false] at hblk'
            exact absurd (by simp) (hblk' _ hmem)
          · exact ihb q' hq' i h1 h2
        · intro i hi1 hi2 hcov
          have hcov1 : ¬ (pos ≤ i ∧ i < pos + sz) := by
            intro hc
            exact hcov ⟨(pos, sz), by simp, hc⟩
          have hcovr : ¬ coveredBy rest i := by
            intro hc
            obtain ⟨q', hq', hc'⟩ := hc
            exact hcov ⟨q', by simp [hq'], hc'⟩
          by_cases hlt : i < pos
          · have hpos : pos > e0 := by omega
            intro hget
            have hany : ((s.drop e0).take (pos - e0)).any (· == Cell.filled) = false := by
              rcases Bool.eq_false_or_eq_true
                  (((s.drop e0).take (pos - e0)).any (· == Cell.filled)) with hb | hb
              · exact absurd ⟨hpos, hb⟩ hgap
              · exact hb
            rw [List.any_eq_false] at hany
            have hmem : Cell.filled ∈ (s.drop e0).take (pos - e0) := by
              have hk : ((s.drop e0).take (pos - e0)).get? (i - e0) = some Cell.filled := by
                rw [List.get?_take (by omega : i - e0 < pos - e0), List.get?_drop,
                  show e0 + (i - e0) = i by omega]
                exact hget
              exact List.get?_mem hk
            exact absurd (by simp) (hany _ hmem)
          · exact ihg i (by omega) hi2 hcovr
        · intro i hcov
          obtain ⟨q', hq', hc'⟩ := hcov
          rcases List.mem_cons.mp hq' with hq' | hq'
          · subst hq'
            omega
          · exact ihc i ⟨q', hq', hc'⟩

/-- A cell index with a value is inside the list. -/
theorem lt_length_of_get? {s : List Cell} {n : ℕ} {c : Cell}
    (h : s.get? n = some c) : n < s.length := by
  rw [List.get?_eq_some] at h
  exact h.1

/-- Unfolding `coveredBy` over a cons. -/
theorem coveredBy_cons {q : ℕ × ℕ} {rest : List (ℕ × ℕ)} {i : ℕ} :
    coveredBy (q :: rest) i ↔ (q.1 ≤ i ∧ i < q.1 + q.2) ∨ coveredBy rest i := by
  constructor
  · rintro ⟨q', hq', hc'⟩
    rcases List.mem_cons.mp hq' with hq' | hq'
    · subst hq'; exact Or.inl hc'
    · exact Or.inr ⟨q', hq', hc'⟩
  · rintro (hc | ⟨q', hq', hc'⟩)
    · exact ⟨q, by simp, hc⟩
    · exact ⟨q', by simp [hq'], hc'⟩

/-- Pointwise effect of the forced commit's block-fill inner loop. -/
theorem fillCells_fst_get? :
    ∀ (size : ℕ) (s : List Cell) (ch : List ℕ) (pos i : ℕ),
      (fillCells s ch pos size).1.get? i =
        if pos ≤ i ∧ i < pos + size ∧ s.get? i = some Cell.unknown
        then some Cell.filled else s.get? i := by
  intro size
  induction size with
  | zero =>
    intro s ch pos i
    simp only [fillCells]
    rw [if_neg (fun hc => by omega)]
  | succ n ih =>
    intro s ch pos i
    simp only [fillCells]
    split
    · rename_i hu
      rw [ih]
      by_cases hip : i = pos
      · subst hip
        have hlen := lt_length_of_get? hu
        rw [if_neg (fun hc => absurd hc.1 (by omega)),
          List.get?_set_eq_of_lt Cell.filled hlen,
          if_pos ⟨le_refl i, by omega, hu⟩]
      · rw [List.get?_set_ne Cell.filled s (fun he => hip he.symm)]
        refine if_congr ?_ rfl rfl
        constructor
        · rintro ⟨a, b, c⟩
          exact ⟨by omega, by omega, c⟩
        · rintro ⟨a, b, c⟩
          exact ⟨by omega, by omega, c⟩
    · rename_i hu
      rw [ih]
      refine if_congr ?_ rfl rfl
      constructor
      · rintro ⟨a, b, c⟩
        exact ⟨by omega, by omega, c⟩
      · rintro ⟨a, b, c⟩
        refine ⟨?_, by omega, c⟩
        by_cases hip : i = pos
        · subst hip; exact absurd c hu
        · omega

/-- Pointwise effect of a blanking loop (`range(x0, x0+n)`): UNKNOWN cells in
the window become BLANK, everything else is untouched. -/
theorem blankRange_fst_get? :
    ∀ (n : ℕ) (s : List Cell) (ch : List ℕ) (x0 i : ℕ),
      (blankRange s ch x0 n).1.get? i =
        if x0 ≤ i ∧ i < x0 + n ∧ s.get? i = some Cell.unknown
        then some Cell.blank else s.get? i := by
  intro n
  induction n with
  | zero =>
    intro s ch x0 i
    simp only [blankRange]
    rw [if_neg (fun hc => by omega)]
  | succ n ih =>
    intro s ch x0 i
    simp only [blankRange]
    split
    · rename_i hu
      rw [ih]
      by_cases hip : i = x0
      · subst hip
        have hlen := lt_length_of_get? hu
        rw [if_neg (fun hc => absurd hc.1 (by omega)),
          List.get?_set_eq_of_lt Cell.blank hlen,
          if_pos ⟨le_refl i, by omega, hu⟩]
      · rw [List.get?_set_ne Cell.blank s (fun he => hip he.symm)]
        refine if_congr ?_ rfl rfl
        constructor
        · rintro ⟨a, b, c⟩
          exact ⟨by omega, by omega, c⟩
        · rintro ⟨a, b, c⟩
          exact ⟨by omega, by omega, c⟩
    · rename_i hu
      rw [ih]
      refine if_congr ?_ rfl rfl
      constructor
      · rintro ⟨a, b, c⟩
        exact ⟨by omega, by omega, c⟩
      · rintro ⟨a, b, c⟩
        refine ⟨?_, by omega, c⟩
        by_cases hip : i = x0
        · subst hip; exact absurd c hu
        · omega

/-- Pointwise effect of the forced commit's whole block pass. -/
theorem fillBlocksGo_fst_get? :
    ∀ (pairs : List (ℕ × ℕ)) (s : List Cell) (ch : List ℕ) (i : ℕ),
      (fillBlocksGo s ch pairs).1.get? i =
        if coveredBy pairs i ∧ s.get? i = some Cell.unknown
        then some Cell.filled else s.get? i := by
  intro pairs
  induction pairs with
  | nil =>
    intro s ch i
    simp only [fillBlocksGo]
    rw [if_neg]
    rintro ⟨⟨q, hq, _⟩, _⟩
    simp at hq
  | cons q rest ih =>
    obtain ⟨pos, sz⟩ := q
    intro s ch i
    simp only [fillBlocksGo]
    rw [ih, fillCells_fst_get?]
    by_cases hu : s.get? i = some Cell.unknown
    · by_cases hc1 : pos ≤ i ∧ i < pos + sz
      · rw [if_pos (show pos ≤ i ∧ i < pos + sz ∧ s.get? i = some Cell.unknown from
          ⟨hc1.1, hc1.2, hu⟩)]
        rw [if_neg (show ¬ (coveredBy rest i ∧
            (some Cell.filled : Option Cell) = some Cell.unknown) from
          fun ha => by simp at ha)]
        rw [if_pos (show coveredBy ((pos, sz) :: rest) i ∧
            s.get? i = some Cell.unknown from
          ⟨coveredBy_cons.mpr (Or.inl hc1), hu⟩)]
      · have hCn : ¬ (pos ≤ i ∧ i < pos + sz ∧ s.get? i = some Cell.unknown) :=
          fun hc => hc1 ⟨hc.1, hc.2.1⟩
        rw [if_neg hCn]
        by_cases hcr : coveredBy rest i
        · rw [if_pos (show coveredBy rest i ∧ s.get? i = some Cell.unknown from
              ⟨hcr, hu⟩),
            if_pos (show coveredBy ((pos, sz) :: rest) i ∧
                s.get? i = some Cell.unknown from
              ⟨coveredBy_cons.mpr (Or.inr hcr), hu⟩)]
        · rw [if_neg (show ¬ (coveredBy rest i ∧ s.get? i = some Cell.unknown) from
              fun ha => hcr ha.1),
            if_neg (show ¬ (coveredBy ((pos, sz) :: rest) i ∧
                s.get? i = some Cell.unknown) from
              fun hb => (coveredBy_cons.mp hb.1).elim (fun hx => hc1 hx) hcr)]
    · have hCn : ¬ (pos ≤ i ∧ i < pos + sz ∧ s.get? i = some Cell.unknown) :=
        fun hc => hu hc.2.2
      rw [if_neg hCn]
      rw [if_neg (show ¬ (coveredBy rest i ∧ s.get? i = some Cell.unknown) from
          fun ha => hu ha.2),
        if_neg (show ¬ (coveredBy ((pos, sz) :: rest) i ∧
            s.get? i = some Cell.unknown) from
          fun hb => hu hb.2)]

/-- Pointwise effect of the whole forced commit: block cells that were
UNKNOWN become FILLED, then UNKNOWN cells in `[left, right)` become BLANK,
and nothing else moves. -/
theorem applyForce_fst_get? (s : List Cell) (left right : ℕ) (hints p : List ℕ)
    (i : ℕ) :
    (applyForce s left right hints p).1.get? i =
      if coveredBy (p.zip hints) i ∧ s.get? i = some Cell.unknown
      then some Cell.filled
      else if left ≤ i ∧ i < left + (right - left) ∧ s.get? i = some Cell.unknown
      then some Cell.blank else s.get? i := by
  unfold applyForce
  rw [blankRange_fst_get?, fillBlocksGo_fst_get?]
  by_cases hu : s.get? i = some Cell.unknown
  · by_cases hcov : coveredBy (p.zip hints) i
    · rw [if_pos (show coveredBy (p.zip hints) i ∧ s.get? i = some Cell.unknown from
        ⟨hcov, hu⟩)]
      rw [if_neg (show ¬ (left ≤ i ∧ i < left + (right - left) ∧
          (some Cell.filled : Option Cell) = some Cell.unknown) from
        fun ha => by simp at ha)]
      rw [if_pos (show coveredBy (p.zip hints) i ∧ s.get? i = some Cell.unknown from
        ⟨hcov, hu⟩)]
    · have hCn : ¬ (coveredBy (p.zip hints) i ∧ s.get? i = some Cell.unknown) :=
        fun hc => hcov hc.1
      rw [if_neg hCn]
      rw [if_neg hCn]
  · have hCn : ¬ (coveredBy (p.zip hints) i ∧ s.get? i = some Cell.unknown) :=
      fun hc => hu hc.2
    rw [if_neg hCn]
    rw [if_neg hCn]

/-- The `while` loop that trims the right edge never moves right past its
starting index. -/
theorem rightTrimAux_le (s : List Cell) (l : ℕ) : ∀ n, rightTrimAux s l n ≤ n := by
  intro n
  induction n with
  | zero => exact le_refl 0
  | succ n ih =>
    simp only [rightTrimAux]
    split
    · omega
    · exact le_refl _

/-- The enumeration loop of `recursive_solve`, started at survivor count `c`
with `force = c + N`, commits exactly the `N`-th remaining survivor. -/
theorem recLoop_forced (s : List Cell) (left right : ℕ) (hints : List ℕ) :
    ∀ (ps : List (List ℕ)) (c N : ℕ) (fc : List ℕ) (q : List ℕ),
      (ps.filter (survivesR s right hints)).get? N = some q →
      recLoop s left right hints ((c : ℤ) + (N : ℤ)) ps c fc =
        .forcedOut (applyForce s left right hints q).1
          (applyForce s left right hints q).2 (c + N) := by
  intro ps
  induction ps with
  | nil =>
    intro c N fc q hq
    simp [List.filter_nil] at hq
  | cons p rest ih =>
    intro c N fc q hq
    by_cases hsv : survivesR s right hints p = true
    · rw [List.filter_cons_of_pos hsv] at hq
      cases N with
      | zero =>
        simp only [List.get?] at hq
        injection hq with hq
        subst hq
        simp only [recLoop, hsv, if_true]
        rw [if_pos (show ((c : ℤ) = (c : ℤ) + ((0 : ℕ) : ℤ)) from by push_cast; ring)]
        rw [Nat.add_zero]
      | succ n =>
        simp only [List.get?] at hq
        simp only [recLoop, hsv, if_true]
        rw [if_neg (show ¬ ((c : ℤ) = (c : ℤ) + (((n + 1 : ℕ)) : ℤ)) from by
          push_cast; omega)]
        rw [show (c : ℤ) + (((n + 1 : ℕ)) : ℤ) = ((c + 1 : ℕ) : ℤ) + (n : ℤ) from by
          push_cast; ring]
        rw [ih (c + 1) n (addFill fc (p.zip hints)) q hq]
        rw [show c + 1 + n = c + (n + 1) from by omega]
    · rw [List.filter_cons_of_neg hsv] at hq
      have hsv' : survivesR s right hints p = false := by
        rcases Bool.eq_false_or_eq_true (survivesR s right hints p) with hb | hb
        · exact absurd hb hsv
        · exact hb
      simp only [recLoop, hsv', Bool.false_eq_true, if_false]
      exact ih c N fc q hq

/-- `recursive_solve` in forced mode: outside the all-Unknown shortcut, with
`force = N` pointing at the `N`-th survivor `q`, it returns the committed
slice `applyForce s left right hints q` together with `pos_count = N`. -/
theorem recursiveSolve_forced (s : List Cell) (hints : List ℕ)
    (available left right N : ℕ) (q : List ℕ)
    (hno : ¬ (¬ s.any (fun c => c ≠ Cell.unknown) = true ∧
      (available : ℤ) - hintsWidth hints ≥ (maxHint hints : ℤ)))
    (hq : (survivorsR s left right hints).get? N = some q) :
    recursiveSolve s hints available left right (N : ℤ) =
      .ok ((applyForce s left right hints q).1,
        (applyForce s left right hints q).2, N) := by
  unfold recursiveSolve
  rw [if_neg hno]
  have hloop := recLoop_forced s left right hints (getAllPositions left right hints)
    0 N (List.replicate s.length 0) q hq
  rw [show ((0 : ℕ) : ℤ) + (N : ℤ) = (N : ℤ) from by push_cast; ring] at hloop
  rw [hloop]
  simp

/-- C3, amended: when the all-Unknown slack shortcut does not apply and `N`
is smaller than the number of surviving placements, `recursive_solve` with
`force = N` commits the `N`-th surviving placement: its blocks' cells end
FILLED, every other cell of `[left, right)` ends BLANK (so no UNKNOWN
remains in `[left, right)`), and it reports `pos_count = N`.  The cell at
index `right` itself is not blanked by the commit (the loop runs over
`range(left, right)`) and may remain UNKNOWN. -/
theorem c3_forced_commit_amended (s : List Cell) (hints : List ℕ)
    (left right avail N : ℕ)
    (htrim : slTrim s = (left, right, avail))
    (hs : s ≠ []) (hne : hints ≠ [])
    (hno : ¬ (¬ s.any (fun c => c ≠ Cell.unknown) = true ∧
      (avail : ℤ) - hintsWidth hints ≥ (maxHint hints : ℤ)))
    (hN : N < (survivorsR s left right hints).length) :
    recursiveSolve s hints avail left right (N : ℤ) =
      .ok ((applyForce s left right hints
          ((survivorsR s left right hints).get ⟨N, hN⟩)).1,
        (applyForce s left right hints
          ((survivorsR s left right hints).get ⟨N, hN⟩)).2, N) ∧
    (∀ i, coveredBy (((survivorsR s left right hints).get ⟨N, hN⟩).zip hints) i →
      (applyForce s left right hints
        ((survivorsR s left right hints).get ⟨N, hN⟩)).1.get? i =
          some Cell.filled) ∧
    (∀ i, left ≤ i → i < right →
      ¬ coveredBy (((survivorsR s left right hints).get ⟨N, hN⟩).zip hints) i →
      (applyForce s left right hints
        ((survivorsR s left right hints).get ⟨N, hN⟩)).1.get? i =
          some Cell.blank) ∧
    (∀ i, left ≤ i → i < right →
      (applyForce s left right hints
        ((survivorsR s left right hints).get ⟨N, hN⟩)).1.get? i ≠
          some Cell.unknown) := by
  set q0 := (survivorsR s left right hints).get ⟨N, hN⟩ with hq0
  have hq? : (survivorsR s left right hints).get? N = some q0 := by
    rw [hq0]
    exact List.get?_eq_get hN
  have hqmem : q0 ∈ survivorsR s left right hints := by
    rw [hq0]
    exact List.get_mem _ _ _
  have hqf := List.mem_filter.mp hqmem
  have hplaced : Placed (right : ℤ) left q0 hints :=
    (mem_getAllPositions_iff_placed (right : ℤ) hints left _ hne).mp hqf.1
  have hsv := hqf.2
  cases hok : okEnd s 0 (q0.zip hints) with
  | none => simp [survivesR, hok] at hsv
  | some e =>
    simp only [survivesR, hok] at hsv
    have hchain := placed_chain (right : ℤ) _ hints left 0 hplaced (Nat.zero_le _)
    obtain ⟨h0e, hblocks, hgaps, hcovlt⟩ := okEnd_spec s _ 0 e hchain hok
    have hele : (e : ℤ) ≤ (right : ℤ) + 1 :=
      placed_okEnd_le (right : ℤ) s _ hints left 0 e hplaced hok
    have hrlen : right < s.length := by
      have h1 : (slTrim s).2.1 = right := by rw [htrim]
      have h2 : (slTrim s).2.1 = rightTrimAux s (leftTrim s) (s.length - 1) := rfl
      have h3 := rightTrimAux_le s (leftTrim s) (s.length - 1)
      have h4 : 0 < s.length := List.length_pos.mpr hs
      omega
    have hnf : ∀ i, i ≤ right → ¬ coveredBy (q0.zip hints) i →
        s.get? i ≠ some Cell.filled := by
      intro i hi hcov
      by_cases hlt : i < e
      · exact hgaps i (Nat.zero_le _) hlt hcov
      · have hetrail : e ≤ right := by omega
        rw [if_pos hetrail] at hsv
        have hanyf : anyFilledFrom s e = false := by simpa using hsv
        unfold anyFilledFrom at hanyf
        rw [List.any_eq_false] at hanyf
        intro hget
        have hmem : Cell.filled ∈ s.drop e := by
          have hk : (s.drop e).get? (i - e) = some Cell.filled := by
            rw [List.get?_drop, show e + (i - e) = i from by omega]
            exact hget
          exact List.get?_mem hk
        exact absurd (by simp) (hanyf _ hmem)
    have hfillc : ∀ i, coveredBy (q0.zip hints) i →
        (applyForce s left right hints q0).1.get? i = some Cell.filled := by
      intro i hcov
      rw [applyForce_fst_get?]
      by_cases hu : s.get? i = some Cell.unknown
      · rw [if_pos ⟨hcov, hu⟩]
      · rw [if_neg (fun hc => hu hc.2)]
        rw [if_neg (fun hc => hu hc.2.2)]
        have hilen : i < s.length := by
          have := hcovlt i hcov
          omega
        obtain ⟨c, hc⟩ : ∃ c, s.get? i = some c := by
          cases hg : s.get? i with
          | none =>
            rw [List.get?_eq_none] at hg
            omega
          | some c => exact ⟨c, rfl⟩
        have hnb : s.get? i ≠ some Cell.blank := by
          obtain ⟨q', hq', hcc⟩ := hcov
          exact hblocks q' hq' i hcc.1 hcc.2
        cases c with
        | unknown => exact absurd hc hu
        | filled => exact hc
        | blank => exact absurd hc hnb
    have hblankc : ∀ i, left ≤ i → i < right → ¬ coveredBy (q0.zip hints) i →
        (applyForce s left right hints q0).1.get? i = some Cell.blank := by
      intro i h1 h2 hcov
      rw [applyForce_fst_get?]
      rw [if_neg (fun hc => hcov hc.1)]
      by_cases hu : s.get? i = some Cell.unknown
      · rw [if_pos ⟨h1, by omega, hu⟩]
      · rw [if_neg (fun hc => hu hc.2.2)]
        have hilen : i < s.length := by omega
        obtain ⟨c, hc⟩ : ∃ c, s.get? i = some c := by
          cases hg : s.get? i with
          | none =>
            rw [List.get?_eq_none] at hg
            omega
          | some c => exact ⟨c, rfl⟩
        have hnff := hnf i (by omega) hcov
        cases c with
        | unknown => exact absurd hc hu
        | filled => exact absurd hc hnff
        | blank => exact hc
    refine ⟨recursiveSolve_forced s hints avail left right N _ hno hq?,
      hfillc, hblankc, ?_⟩
    intro i h1 h2
    by_cases hcov : coveredBy (q0.zip hints) i
    · rw [hfillc i hcov]
      simp
    · rw [hblankc i h1 h2 hcov]
      simp

/-- Reading a replicated list. -/
theorem get?_replicate (c : Cell) (n k : ℕ) :
    (List.replicate n c).get? k = if k < n then some c else none := by
  induction n generalizing k with
  | zero => simp
  | succ n ih =>
    cases k with
    | zero => simp [List.replicate]
    | succ k =>
      simp only [List.replicate, List.get?, ih]
      by_cases hk : k < n
      · rw [if_pos hk, if_pos (by omega)]
      · rw [if_neg hk, if_neg (by omega)]

/-- A `Placed` start list tolerates weakening the lower bound. -/
theorem placed_mono_lo (right : ℤ) :
    ∀ (p hints : List ℕ) (lo lo' : ℕ), Placed right lo p hints → lo' ≤ lo →
      Placed right lo' p hints := by
  intro p
  induction p with
  | nil => intro hints lo lo' hpl _; cases hints <;> exact False.elim hpl
  | cons q t ih =>
    intro hints lo lo' hpl hle
    cases hints with
    | nil => cases t <;> exact False.elim hpl
    | cons h hs =>
      cases t with
      | nil =>
        cases hs with
        | nil => obtain ⟨h1, h2⟩ := hpl; exact ⟨by omega, h2⟩
        | cons => exact False.elim hpl
      | cons q2 ps =>
        cases hs with
        | nil => exact False.elim hpl
        | cons h2 hs2 =>
          obtain ⟨h1, hplt⟩ := hpl
          exact ⟨by omega, hplt⟩

/-- The packed width of a placed start list fits between `lo` and
`right + 1`. -/
theorem placed_width (right : ℤ) :
    ∀ (p hints : List ℕ) (lo : ℕ), Placed right lo p hints →
      (lo : ℤ) + hintsWidth hints ≤ right + 1 := by
  intro p
  induction p with
  | nil => intro hints lo hpl; cases hints <;> exact False.elim hpl
  | cons q t ih =>
    intro hints lo hpl
    cases hints with
    | nil => cases t <;> exact False.elim hpl
    | cons h hs =>
      cases t with
      | nil =>
        cases hs with
        | nil =>
          obtain ⟨h1, h2⟩ := hpl
          simp only [hintsWidth, List.sum_cons, List.sum_nil, List.length_cons,
            List.length_nil]
          omega
        | cons => exact False.elim hpl
      | cons q2 ps =>
        cases hs with
        | nil => exact False.elim hpl
        | cons h2 hs2 =>
          obtain ⟨h1, hplt⟩ := hpl
          have := ih (h2 :: hs2) (q + h + 1) hplt
          rw [hintsWidth_cons h (h2 :: hs2)]
          push_cast at this ⊢
          omega

/-- A solved segment always spells at least one hint. -/
theorem seg_hints_ne_nil {hints : List ℕ} {core : List Cell}
    (h : SolvedSeg hints core) : hints ≠ [] := by
  cases h <;> simp

/-- A solved segment contains no UNKNOWN cell. -/
theorem seg_noUnknown {hints : List ℕ} {core : List Cell}
    (h : SolvedSeg hints core) : ∀ c ∈ core, c ≠ Cell.unknown := by
  induction h with
  | last h z hpos =>
    intro c hc
    rcases List.mem_append.mp hc with hc | hc <;>
      rw [List.eq_of_mem_replicate hc] <;> simp
  | step h g hs t hpos hg ht ih =>
    intro c hc
    rcases List.mem_append.mp hc with hc | hc
    · rcases List.mem_append.mp hc with hc | hc <;>
        rw [List.eq_of_mem_replicate hc] <;> simp
    · exact ih c hc

/-- A placed start list against a non-empty hint list is non-empty. -/
theorem placed_ne_nil {right : ℤ} {lo h2 : ℕ} {p hs2 : List ℕ}
    (hpl : Placed right lo p (h2 :: hs2)) : ∃ q2 p2, p = q2 :: p2 := by
  cases p with
  | nil => cases hs2 <;> exact False.elim hpl
  | cons q2 p2 => exact ⟨q2, p2, rfl⟩

/-- Everything the run-solving proof needs about a solved segment `core`
placed at absolute offset `ofs`: a placement `p` of the hints such that the
FILLED cells of `core` are exactly the block cells, blocks sit inside
`[ofs, ofs + eL)` where `ofs + eL` is one past the last FILLED cell,
everything from `eL` on is BLANK padding, and the hints' packed width is at
most `eL`. -/
theorem seg_facts :
    ∀ (hints : List ℕ) (core : List Cell), SolvedSeg hints core → ∀ (ofs : ℕ),
      ∃ (p : List ℕ) (eL : ℕ),
        Placed ((ofs : ℤ) + (eL : ℤ) - 1) ofs p hints ∧
        (∀ k, k < core.length →
          (core.get? k = some Cell.filled ↔ coveredBy (p.zip hints) (ofs + k))) ∧
        (∀ i, coveredBy (p.zip hints) i → ofs ≤ i ∧ i < ofs + eL) ∧
        (0 < eL ∧ eL ≤ core.length) ∧
        core.get? (eL - 1) = some Cell.filled ∧
        (∀ k, eL ≤ k → k < core.length → core.get? k = some Cell.blank) ∧
        (∀ e0, pairsEnd e0 (p.zip hints) = ofs + eL) ∧
        hintsWidth hints ≤ (eL : ℤ) := by
  intro hints core hseg
  induction hseg with
  | last h z hpos =>
    intro ofs
    have hcore : ∀ k,
        (List.replicate h Cell.filled ++ List.replicate z Cell.blank).get? k =
          if k < h then some Cell.filled
          else if k < h + z then some Cell.blank else none := by
      intro k
      by_cases hk : k < h
      · rw [List.get?_append (by simpa using hk), get?_replicate,
          if_pos hk, if_pos hk]
      · rw [List.get?_append_right (by simpa using hk), get?_replicate]
        simp only [List.length_replicate]
        by_cases hk2 : k - h < z
        · rw [if_pos hk2, if_neg hk, if_pos (by omega)]
        · rw [if_neg hk2, if_neg hk, if_neg (by omega)]
    have hlen : (List.replicate h Cell.filled ++ List.replicate z Cell.blank).length
        = h + z := by simp
    refine ⟨[ofs], h, ⟨le_refl _, by omega⟩, ?_, ?_, ?_, ?_, ?_, ?_, ?_⟩
    · intro k hk
      rw [hlen] at hk
      rw [hcore]
      by_cases hkh : k < h
      · rw [if_pos hkh]
        constructor
        · intro _
          exact ⟨(ofs, h), by simp, (show ofs ≤ ofs + k from by omega),
            (show ofs + k < ofs + h from by omega)⟩
        · intro _
          rfl
      · rw [if_neg hkh, if_pos (by omega : k < h + z)]
        constructor
        · intro hc
          exact absurd hc (by simp)
        · rintro ⟨q, hq, hc⟩
          have hq' : q = (ofs, h) := by simpa using hq
          subst hq'
          have hc2 : ofs + k < ofs + h := hc.2
          omega
    · rintro i ⟨q, hq, hc⟩
      have hq' : q = (ofs, h) := by simpa using hq
      subst hq'
      have hc1 : ofs ≤ i := hc.1
      have hc2 : i < ofs + h := hc.2
      exact ⟨hc1, by omega⟩
    · exact ⟨hpos, by rw [hlen]; omega⟩
    · rw [hcore, if_pos (by omega : h - 1 < h)]
    · intro k h1 h2
      rw [hlen] at h2
      rw [hcore, if_neg (by omega), if_pos (by omega)]
    · intro e0
      rfl
    · simp only [hintsWidth, List.sum_cons, List.sum_nil, List.length_cons,
        List.length_nil]
      push_cast
      omega
  | step h g hs t hpos hg ht ih =>
    intro ofs
    obtain ⟨h2, hs2, rfl⟩ : ∃ h2 hs2, hs = h2 :: hs2 := by
      cases hs with
      | nil => exact absurd rfl (seg_hints_ne_nil ht)
      | cons a b => exact ⟨a, b, rfl⟩
    obtain ⟨p', eL', ih1, ih2, ih3, ih4, ih5, ih6, ih7, ih8⟩ := ih (ofs + h + g)
    obtain ⟨q2, p2, rfl⟩ := placed_ne_nil ih1
    have hpos' := ih4.1
    have hcore : ∀ k,
        (List.replicate h Cell.filled ++ List.replicate g Cell.blank ++ t).get? k =
          if k < h then some Cell.filled
          else if k < h + g then some Cell.blank else t.get? (k - h - g) := by
      intro k
      by_cases hk : k < h + g
      · rw [List.get?_append (by simp; omega)]
        by_cases hkh : k < h
        · rw [List.get?_append (by simpa using hkh), get?_replicate,
            if_pos hkh, if_pos hkh]
        · rw [List.get?_append_right (by simpa using hkh), get?_replicate]
          simp only [List.length_replicate]
          rw [if_pos (by omega), if_neg hkh, if_pos hk]
      · rw [List.get?_append_right (by simp; omega)]
        simp only [List.length_append, List.length_replicate]
        rw [if_neg (by omega), if_neg hk]
        congr 1
        omega
    have hlen : (List.replicate h Cell.filled ++ List.replicate g Cell.blank ++ t).length
        = h + g + t.length := by
      rw [List.length_append, List.length_append, List.length_replicate,
        List.length_replicate]
    have hcast : ((ofs + h + g : ℕ) : ℤ) + (eL' : ℤ) - 1 =
        (ofs : ℤ) + ((h + g + eL' : ℕ) : ℤ) - 1 := by push_cast; ring
    rw [hcast] at ih1
    refine ⟨ofs :: q2 :: p2, h + g + eL',
      ⟨le_refl _, placed_mono_lo _ (q2 :: p2) (h2 :: hs2) (ofs + h + g)
        (ofs + h + 1) ih1 (by omega)⟩, ?_, ?_, ?_, ?_, ?_, ?_, ?_⟩
    · intro k hk
      rw [hlen] at hk
      rw [hcore, List.zip_cons_cons]
      by_cases hkh : k < h
      · rw [if_pos hkh]
        constructor
        · intro _
          exact coveredBy_cons.mpr (Or.inl ⟨(show ofs ≤ ofs + k from by omega),
            (show ofs + k < ofs + h from by omega)⟩)
        · intro _
          rfl
      · by_cases hkg : k < h + g
        · rw [if_neg hkh, if_pos hkg]
          constructor
          · intro hc
            exact absurd hc (by simp)
          · intro hcov
            rcases coveredBy_cons.mp hcov with hc | hc
            · have hc2 : ofs + k < ofs + h := hc.2
              omega
            · have h1 : ofs + h + g ≤ ofs + k := (ih3 _ hc).1
              omega
        · rw [if_neg hkh, if_neg hkg]
          have hk' : k - h - g < t.length := by omega
          have hiff := ih2 (k - h - g) hk'
          rw [show ofs + h + g + (k - h - g) = ofs + k from by omega] at hiff
          constructor
          · intro hf
            exact coveredBy_cons.mpr (Or.inr (hiff.mp hf))
          · intro hcov
            rcases coveredBy_cons.mp hcov with hc | hc
            · have hc2 : ofs + k < ofs + h := hc.2
              omega
            · exact hiff.mpr hc
    · intro i hcov
      rcases coveredBy_cons.mp hcov with hc | hc
      · have hc1 : ofs ≤ i := hc.1
        have hc2 : i < ofs + h := hc.2
        exact ⟨hc1, by omega⟩
      · have h1 := (ih3 _ hc).1
        have h2 := (ih3 _ hc).2
        exact ⟨by omega, by omega⟩
    · refine ⟨by omega, ?_⟩
      rw [hlen]
      have := ih4.2
      omega
    · rw [hcore, if_neg (by omega), if_neg (by omega),
        show h + g + eL' - 1 - h - g = eL' - 1 from by omega]
      exact ih5
    · intro k h1 h2
      rw [hlen] at h2
      rw [hcore, if_neg (by omega), if_neg (by omega)]
      exact ih6 (k - h - g) (by omega) (by omega)
    · intro e0
      rw [List.zip_cons_cons]
      rw [show pairsEnd e0 ((ofs, h) :: (q2 :: p2).zip (h2 :: hs2)) =
        pairsEnd (ofs + h) ((q2 :: p2).zip (h2 :: hs2)) from rfl]
      rw [ih7 (ofs + h)]
      omega
    · rw [hintsWidth_cons h (h2 :: hs2)]
      push_cast at ih8 ⊢
      omega

/-- C3 witness: forcing placement 0 of `[BLANK, UNKNOWN, UNKNOWN, UNKNOWN]`
with hints `[1]` commits `[BLANK, FILLED, BLANK, UNKNOWN]`; cell 1 (the
block) is FILLED and cell 2 (the only other cell of `[left, right) = [1,3)`)
is BLANK. -/
theorem c3_forced_commit_amended_witness :
    recursiveSolve [Cell.blank, Cell.unknown, Cell.unknown, Cell.unknown] [1]
        3 1 3 ((0 : ℕ) : ℤ) =
      .ok ([Cell.blank, Cell.filled, Cell.blank, Cell.unknown], [1, 2], 0) ∧
    ([Cell.blank, Cell.filled, Cell.blank, Cell.unknown] : List Cell).get? 2 =
      some Cell.blank := by
  have h := c3_forced_commit_amended
    [Cell.blank, Cell.unknown, Cell.unknown, Cell.unknown] [1] 1 3 3 0
    rfl (by decide) (by decide) (by decide) (by decide)
  refine ⟨?_, by decide⟩
  rw [h.1]
  rfl

/-- `runsOf` ignores a leading BLANK cell. -/
theorem runsOf_blank (rest : List Cell) :
    runsOf (Cell.blank :: rest) = runsOf rest := rfl

/-- One unfolding of `runsOf` at a FILLED head, with the recursive call kept
abstract so it can be rewritten. -/
theorem runsOf_filled_unfold (s : List Cell) :
    runsOf (Cell.filled :: s) =
      match s, runsOf s with
      | Cell.filled :: _, n :: ns => (n + 1) :: ns
      | _, l => 1 :: l := rfl

/-- A FILLED cell in front of a FILLED-headed tail extends the tail's first
run. -/
theorem runsOf_filled_filled {r2 : List Cell} {n : ℕ} {ns : List ℕ}
    (h : runsOf (Cell.filled :: r2) = n :: ns) :
    runsOf (Cell.filled :: Cell.filled :: r2) = (n + 1) :: ns := by
  rw [runsOf_filled_unfold, h]

/-- A solved segment starts with a FILLED cell. -/
theorem seg_head {hints : List ℕ} {core : List Cell}
    (hseg : SolvedSeg hints core) : core.head? = some Cell.filled := by
  cases hseg with
  | last h z hpos =>
    obtain ⟨k, rfl⟩ : ∃ k, h = k + 1 := ⟨h - 1, by omega⟩
    rw [List.replicate_succ, List.cons_append]
    rfl
  | step h g hs t hpos hg ht =>
    obtain ⟨k, rfl⟩ : ∃ k, h = k + 1 := ⟨h - 1, by omega⟩
    rw [List.replicate_succ, List.cons_append, List.cons_append]
    rfl

/-- Extending a solved segment with one more FILLED cell bumps its first
hint. -/
theorem seg_cons_filled {n : ℕ} {ns : List ℕ} {t : List Cell}
    (hseg : SolvedSeg (n :: ns) t) :
    SolvedSeg ((n + 1) :: ns) (Cell.filled :: t) := by
  cases hseg with
  | last h2 z hpos =>
    have hshape : Cell.filled ::
          (List.replicate n Cell.filled ++ List.replicate z Cell.blank)
        = List.replicate (n + 1) Cell.filled ++ List.replicate z Cell.blank := by
      rw [List.replicate_succ, List.cons_append]
    rw [hshape]
    exact SolvedSeg.last (n + 1) z (by omega)
  | step h2 g hs2 t2 hpos hg ht2 =>
    have hshape : Cell.filled ::
          (List.replicate n Cell.filled ++ List.replicate g Cell.blank ++ t2)
        = List.replicate (n + 1) Cell.filled ++ List.replicate g Cell.blank ++ t2 := by
      rw [List.replicate_succ, List.cons_append, List.cons_append]
    rw [hshape]
    exact SolvedSeg.step (n + 1) g ns t2 (by omega) hg ht2

/-- Any UNKNOWN-free slice decomposes along its FILLED runs: an empty run
list means the slice is all BLANK, and a non-empty run list splits the slice
into leading BLANK padding followed by a solved segment spelling the runs. -/
theorem runs_decomp : ∀ (s : List Cell), (∀ c ∈ s, c ≠ Cell.unknown) →
    (runsOf s = [] → s = List.replicate s.length Cell.blank) ∧
    (∀ n ns, runsOf s = n :: ns →
      ∃ a core, s = List.replicate a Cell.blank ++ core ∧
        SolvedSeg (n :: ns) core) := by
  intro s
  induction s with
  | nil =>
    intro _
    exact ⟨fun _ => rfl,
      fun n ns h => absurd (show ([] : List Nat) = n :: ns from h) (by simp)⟩
  | cons c rest ih =>
    intro hnu
    have hnur : ∀ x ∈ rest, x ≠ Cell.unknown :=
      fun x hx => hnu x (List.mem_cons_of_mem _ hx)
    obtain ⟨ih1, ih2⟩ := ih hnur
    cases c with
    | unknown => exact absurd rfl (hnu Cell.unknown (List.mem_cons_self _ _))
    | blank =>
      refine ⟨fun h => ?_, fun n ns h => ?_⟩
      · rw [List.length_cons, List.replicate_succ]
        exact congrArg (List.cons Cell.blank) (ih1 h)
      · obtain ⟨a, core, heq, hseg⟩ := ih2 n ns h
        refine ⟨a + 1, core, ?_, hseg⟩
        rw [List.replicate_succ, List.cons_append]
        exact congrArg (List.cons Cell.blank) heq
    | filled =>
      cases rest with
      | nil =>
        refine ⟨fun h => absurd (show (1 : ℕ) :: [] = [] from h) (by simp),
          fun n ns h => ?_⟩
        have h1 : (1 : ℕ) :: [] = n :: ns := h
        injection h1 with hn hns
        refine ⟨0, [Cell.filled], by simp, ?_⟩
        rw [← hn, ← hns]
        simpa using SolvedSeg.last 1 0 (le_refl 1)
      | cons c2 r2 =>
        cases c2 with
        | unknown =>
          exact absurd rfl (hnu Cell.unknown
            (List.mem_cons_of_mem _ (List.mem_cons_self _ _)))
        | blank =>
          refine ⟨fun h => absurd (show (1 : ℕ) :: runsOf r2 = [] from h) (by simp),
            fun n ns h => ?_⟩
          have h1 : (1 : ℕ) :: runsOf r2 = n :: ns := h
          injection h1 with hn hns
          cases hns2 : runsOf r2 with
          | nil =>
            have hb := ih1 (show runsOf (Cell.blank :: r2) = [] from hns2)
            rw [List.length_cons] at hb
            refine ⟨0, Cell.filled :: Cell.blank :: r2, by simp, ?_⟩
            rw [← hn, ← hns, hns2, hb]
            simpa using SolvedSeg.last 1 (r2.length + 1) (le_refl 1)
          | cons n2 ns2 =>
            obtain ⟨a, core, heq, hseg⟩ :=
              ih2 n2 ns2 (show runsOf (Cell.blank :: r2) = n2 :: ns2 from hns2)
            have hhead := seg_head hseg
            have ha : ∃ a2, a = a2 + 1 := by
              cases a with
              | zero =>
                simp only [List.replicate_zero, List.nil_append] at heq
                rw [← heq] at hhead
                simp at hhead
              | succ a2 => exact ⟨a2, rfl⟩
            obtain ⟨a2, rfl⟩ := ha
            refine ⟨0, Cell.filled :: Cell.blank :: r2, by simp, ?_⟩
            rw [← hn, ← hns, hns2]
            have hstep := SolvedSeg.step 1 (a2 + 1) (n2 :: ns2) core (le_refl 1)
              (by omega) hseg
            have hshape : List.replicate 1 Cell.filled ++
                  List.replicate (a2 + 1) Cell.blank ++ core
                = Cell.filled :: Cell.blank :: r2 := by
              rw [show List.replicate 1 Cell.filled ++
                    List.replicate (a2 + 1) Cell.blank ++ core
                  = Cell.filled :: (List.replicate (a2 + 1) Cell.blank ++ core) from by
                simp, ← heq]
            rw [← hshape]
            exact hstep
        | filled =>
          cases hq : runsOf (Cell.filled :: r2) with
          | nil =>
            exfalso
            have hb := ih1 hq
            rw [List.length_cons, List.replicate_succ] at hb
            injection hb with hc _
            exact Cell.noConfusion hc
          | cons n2 ns2 =>
            have hrs := runsOf_filled_filled hq
            refine ⟨fun h => ?_, fun n ns h => ?_⟩
            · rw [hrs] at h
              exact absurd h (by simp)
            · rw [hrs] at h
              injection h with hn hns
              obtain ⟨a, core, heq, hseg⟩ := ih2 n2 ns2 hq
              have ha : a = 0 := by
                cases a with
                | zero => rfl
                | succ a2 =>
                  rw [List.replicate_succ, List.cons_append] at heq
                  injection heq with hc _
                  exact absurd hc (by simp)
              subst ha
              simp only [List.replicate_zero, List.nil_append] at heq
              refine ⟨0, Cell.filled :: Cell.filled :: r2, by simp, ?_⟩
              rw [← hn, ← hns]
              rw [← heq] at hseg
              exact seg_cons_filled hseg

/-- An UNKNOWN-free slice whose FILLED runs spell a non-empty hint list is
leading BLANK padding followed by a solved segment of those hints. -/
theorem runs_to_seg {s : List Cell} {hints : List ℕ}
    (hnu : ∀ c ∈ s, c ≠ Cell.unknown) (hne : hints ≠ [])
    (hr : runsOf s = hints) :
    ∃ a core, s = List.replicate a Cell.blank ++ core ∧ SolvedSeg hints core := by
  cases hints with
  | nil => exact absurd rfl hne
  | cons n ns => exact (runs_decomp s hnu).2 n ns hr

/-- `left` lands exactly past the BLANK padding when the rest starts
FILLED. -/
theorem leftTrim_eval : ∀ (a : ℕ) (core : List Cell),
    core.head? = some Cell.filled →
    leftTrim (List.replicate a Cell.blank ++ core) = a := by
  intro a
  induction a with
  | zero =>
    intro core hh
    obtain ⟨c, r, rfl⟩ : ∃ c r, core = c :: r := by
      cases core with
      | nil => exact absurd hh (by simp)
      | cons c r => exact ⟨c, r, rfl⟩
    have hc : c = Cell.filled := by simpa using hh
    subst hc
    simp only [List.replicate_zero, List.nil_append, leftTrim]
    rw [List.takeWhile_cons_of_neg (by decide)]
    rfl
  | succ a ih =>
    intro core hh
    rw [List.replicate_succ, List.cons_append]
    simp only [leftTrim]
    rw [List.takeWhile_cons_of_pos (by decide), List.length_cons]
    have := ih core hh
    simp only [leftTrim] at this
    omega

/-- `right` lands exactly on the last FILLED cell when everything after it is
BLANK. -/
theorem rightTrimAux_eval (s : List Cell) (l m : ℕ) (hlm : l ≤ m)
    (hm : s.get? m = some Cell.filled)
    (hblank : ∀ j, m < j → j < s.length → s.get? j = some Cell.blank) :
    ∀ n, m ≤ n → n < s.length → rightTrimAux s l n = m := by
  intro n
  induction n with
  | zero =>
    intro h1 _
    have h0 : m = 0 := by omega
    subst h0
    rfl
  | succ r ih =>
    intro h1 h2
    by_cases hmr : m = r + 1
    · subst hmr
      simp only [rightTrimAux]
      rw [if_neg]
      rintro ⟨_, hb⟩
      rw [hm] at hb
      exact Cell.noConfusion (Option.some.inj hb)
    · have hmr2 : m ≤ r := by omega
      simp only [rightTrimAux]
      rw [if_pos ⟨by omega, hblank (r + 1) (by omega) h2⟩]
      exact ih hmr2 (by omega)

/-- The trim of BLANK padding followed by a solved-style core: `left` is the
padding length, `right` the last FILLED cell, `available` the distance to one
past it. -/
theorem slTrim_eval (s : List Cell) (a eL : ℕ) (core : List Cell)
    (hs : s = List.replicate a Cell.blank ++ core)
    (hhead : core.head? = some Cell.filled)
    (heL0 : 0 < eL) (heLlen : eL ≤ core.length)
    (hlast : core.get? (eL - 1) = some Cell.filled)
    (htrail : ∀ k, eL ≤ k → k < core.length → core.get? k = some Cell.blank) :
    slTrim s = (a, a + eL - 1, eL) := by
  have hslen : s.length = a + core.length := by
    rw [hs, List.length_append, List.length_replicate]
  have hsget : ∀ k, k < core.length → s.get? (a + k) = core.get? k := by
    intro k _
    rw [hs, List.get?_append_right (by rw [List.length_replicate]; omega),
      List.length_replicate, show a + k - a = k from by omega]
  have hltrim : leftTrim s = a := by
    rw [hs]
    exact leftTrim_eval a core hhead
  have hmfill : s.get? (a + eL - 1) = some Cell.filled := by
    rw [show a + eL - 1 = a + (eL - 1) from by omega, hsget (eL - 1) (by omega)]
    exact hlast
  have hafter : ∀ j, a + eL - 1 < j → j < s.length → s.get? j = some Cell.blank := by
    intro j h1 h2
    have hg := hsget (j - a) (by omega)
    rw [show a + (j - a) = j from by omega] at hg
    rw [hg]
    exact htrail (j - a) (by omega) (by omega)
  have hrtrim : rightTrimAux s a (s.length - 1) = a + eL - 1 :=
    rightTrimAux_eval s a (a + eL - 1) (by omega) hmfill hafter (s.length - 1)
      (by omega) (by omega)
  have hsne : s ≠ [] := by
    intro h0
    rw [h0] at hslen
    simp at hslen
    omega
  have hnotE : s.isEmpty = false := List.isEmpty_eq_false.mpr hsne
  simp only [slTrim]
  rw [hltrim, hrtrim, hnotE, if_neg (show ¬ (false = true) from by simp),
    show a + eL - 1 + 1 - a = eL from by omega]

/-- `forceFillCells` over an all-FILLED range changes nothing. -/
theorem forceFillCells_noop (s : List Cell) :
    ∀ (n pos : ℕ) (ch : List ℕ),
      (∀ i, pos ≤ i → i < pos + n → s.get? i = some Cell.filled) →
      forceFillCells s ch pos n = (s, ch) := by
  intro n
  induction n with
  | zero =>
    intro pos ch _
    rfl
  | succ n ih =>
    intro pos ch hfill
    have h0 : s.get? pos = some Cell.filled := hfill pos (le_refl _) (by omega)
    simp only [forceFillCells, h0]
    exact ih (pos + 1) ch (fun i h1 h2 => hfill i (by omega) (by omega))

/-- The intersection pass leaves a slice without UNKNOWN cells untouched and
reports no changes. -/
theorem intersectAux_noop (pc : ℕ) (fc : List ℕ) :
    ∀ (s : List Cell) (x : ℕ), (∀ c ∈ s, c ≠ Cell.unknown) →
      intersectAux pc fc s x = (s, []) := by
  intro s
  induction s with
  | nil =>
    intro x _
    rfl
  | cons c rest ih =>
    intro x hnu
    have hc : c ≠ Cell.unknown := hnu c (List.mem_cons_self _ _)
    have hr := ih (x + 1) (fun d hd => hnu d (List.mem_cons_of_mem _ hd))
    simp only [intersectAux, hr]
    rw [if_neg hc]

/-- With a negative `force` (the normal `solve_slice` call), the enumeration
loop never commits: it adds the survivor count to the running count. -/
theorem recLoop_neg (s : List Cell) (left right : ℕ) (hints : List ℕ)
    (force : ℤ) (hf : force < 0) :
    ∀ (ps : List (List ℕ)) (pc : ℕ) (fc : List ℕ),
      ∃ fc2, recLoop s left right hints force ps pc fc =
        .counted (pc + (ps.filter (survivesR s right hints)).length) fc2 := by
  intro ps
  induction ps with
  | nil =>
    intro pc fc
    exact ⟨fc, by simp [recLoop]⟩
  | cons p rest ih =>
    intro pc fc
    by_cases hsv : survivesR s right hints p = true
    · obtain ⟨fc2, hEq⟩ := ih (pc + 1) (addFill fc (p.zip hints))
      refine ⟨fc2, ?_⟩
      simp only [recLoop]
      rw [if_pos hsv, if_neg (show ¬ ((pc : ℤ) = force) from by omega), hEq,
        List.filter_cons_of_pos hsv]
      congr 1
      rw [List.length_cons]
      omega
    · obtain ⟨fc2, hEq⟩ := ih pc fc
      refine ⟨fc2, ?_⟩
      simp only [recLoop]
      rw [if_neg hsv, hEq, List.filter_cons_of_neg hsv]

/-- The running end of an ordered chain only moves forward. -/
theorem pairsEnd_lb : ∀ (pairs : List (ℕ × ℕ)) (e0 : ℕ),
    PairsChain e0 pairs → e0 ≤ pairsEnd e0 pairs := by
  intro pairs
  induction pairs with
  | nil =>
    intro e0 _
    exact le_refl _
  | cons q rest ih =>
    obtain ⟨pos, sz⟩ := q
    intro e0 hch
    obtain ⟨h1, h2⟩ := hch
    have h3 := ih (pos + sz) h2
    rw [show pairsEnd e0 ((pos, sz) :: rest) = pairsEnd (pos + sz) rest from rfl]
    omega

/-- A covered cell sits at or after the chain's starting end. -/
theorem chain_cover_lb : ∀ (pairs : List (ℕ × ℕ)) (e0 i : ℕ),
    PairsChain e0 pairs → coveredBy pairs i → e0 ≤ i := by
  intro pairs
  induction pairs with
  | nil =>
    intro e0 i _ hcov
    exact absurd hcov (by simp [coveredBy])
  | cons q rest ih =>
    obtain ⟨pos, sz⟩ := q
    intro e0 i hch hcov
    obtain ⟨h1, h2⟩ := hch
    rcases coveredBy_cons.mp hcov with hc | hc
    · have hc1 : pos ≤ i := hc.1
      omega
    · have := ih (pos + sz) i h2 hc
      omega

/-- Converse of the block-loop analysis: an ordered chain whose block cells
are never BLANK and whose uncovered cells before the final end are never
FILLED passes every check, returning the chain's end. -/
theorem okEnd_succeeds (s : List Cell) :
    ∀ (pairs : List (ℕ × ℕ)) (e0 : ℕ), PairsChain e0 pairs →
      (∀ q ∈ pairs, ∀ i, q.1 ≤ i → i < q.1 + q.2 → s.get? i ≠ some Cell.blank) →
      (∀ i, e0 ≤ i → i < pairsEnd e0 pairs → ¬ coveredBy pairs i →
        s.get? i ≠ some Cell.filled) →
      okEnd s e0 pairs = some (pairsEnd e0 pairs) := by
  intro pairs
  induction pairs with
  | nil =>
    intro e0 _ _ _
    rfl
  | cons q rest ih =>
    obtain ⟨pos, sz⟩ := q
    intro e0 hch hblk hgap
    obtain ⟨hch1, hch2⟩ := hch
    have hpe : pairsEnd e0 ((pos, sz) :: rest) = pairsEnd (pos + sz) rest := rfl
    have hposle : pos + sz ≤ pairsEnd (pos + sz) rest := pairsEnd_lb rest (pos + sz) hch2
    have hgapF : ¬ (pos > e0 ∧
        ((s.drop e0).take (pos - e0)).any (· == Cell.filled) = true) := by
      rintro ⟨hpos, hany⟩
      obtain ⟨c, hcmem, hcb⟩ := List.any_eq_true.mp hany
      have hcf : c = Cell.filled := by simpa using hcb
      subst hcf
      obtain ⟨j, hj⟩ := List.get?_of_mem hcmem
      have hjl : j < ((s.drop e0).take (pos - e0)).length := lt_length_of_get? hj
      rw [List.length_take] at hjl
      have hjlt : j < pos - e0 := lt_of_lt_of_le hjl (min_le_left _ _)
      rw [List.get?_take hjlt, List.get?_drop] at hj
      have hncov : ¬ coveredBy ((pos, sz) :: rest) (e0 + j) := by
        intro hcov
        rcases coveredBy_cons.mp hcov with hc | hc
        · have hc1 : pos ≤ e0 + j := hc.1
          omega
        · have := chain_cover_lb rest (pos + sz) (e0 + j) hch2 hc
          omega
      exact hgap (e0 + j) (by omega) (by rw [hpe]; omega) hncov hj
    have hblkF : ¬ (((s.drop pos).take sz).any (· == Cell.blank) = true) := by
      intro hany
      obtain ⟨c, hcmem, hcb⟩ := List.any_eq_true.mp hany
      have hcf : c = Cell.blank := by simpa using hcb
      subst hcf
      obtain ⟨j, hj⟩ := List.get?_of_mem hcmem
      have hjl : j < ((s.drop pos).take sz).length := lt_length_of_get? hj
      rw [List.length_take] at hjl
      have hjlt : j < sz := lt_of_lt_of_le hjl (min_le_left _ _)
      rw [List.get?_take hjlt, List.get?_drop] at hj
      exact hblk (pos, sz) (List.mem_cons_self _ _) (pos + j) (by omega) (by omega) hj
    simp only [okEnd]
    rw [if_neg hgapF, if_neg hblkF, hpe]
    refine ih (pos + sz) hch2 ?_ ?_
    · intro q hq i h1 h2
      exact hblk q (List.mem_cons_of_mem _ hq) i h1 h2
    · intro i h1 h2 hncov
      refine hgap i (by omega) (by rw [hpe]; omega) ?_
      intro hcov
      rcases coveredBy_cons.mp hcov with hc | hc
      · have hc2 : i < pos + sz := hc.2
        omega
      · exact hncov hc

/-- One past the last FILLED cell is determined by the FILLED/BLANK pattern
alone. -/
theorem lastFilled_unique {core : List Cell} {e1 e2 : ℕ}
    (h1len : e1 ≤ core.length) (h1f : core.get? (e1 - 1) = some Cell.filled)
    (h1b : ∀ k, e1 ≤ k → k < core.length → core.get? k = some Cell.blank)
    (h20 : 0 < e2) (h2len : e2 ≤ core.length)
    (h2f : core.get? (e2 - 1) = some Cell.filled)
    (h2b : ∀ k, e2 ≤ k → k < core.length → core.get? k = some Cell.blank)
    (h10 : 0 < e1) :
    e1 = e2 := by
  by_contra hne2
  rcases Nat.lt_or_ge e1 e2 with hlt | hge
  · have hh := h1b (e2 - 1) (by omega) (by omega)
    rw [h2f] at hh
    exact Cell.noConfusion (Option.some.inj hh)
  · have hlt2 : e2 < e1 := by omega
    have hh := h2b (e1 - 1) (by omega) (by omega)
    rw [h1f] at hh
    exact Cell.noConfusion (Option.some.inj hh)

/-- On a slice that agrees pointwise with a solved segment filling it to the
end, the exact-fit writer changes nothing when the hints' packed width equals
the distance to one past the last FILLED cell. -/
theorem seg_exact :
    ∀ (hints : List ℕ) (core : List Cell), SolvedSeg hints core →
    ∀ (s : List Cell) (ofs : ℕ),
      (∀ k, k < core.length → s.get? (ofs + k) = core.get? k) →
      ofs + core.length = s.length →
      ∃ eL : ℕ, (0 < eL ∧ eL ≤ core.length) ∧
        core.get? (eL - 1) = some Cell.filled ∧
        (∀ k, eL ≤ k → k < core.length → core.get? k = some Cell.blank) ∧
        hintsWidth hints ≤ (eL : ℤ) ∧
        (hintsWidth hints = (eL : ℤ) →
          ∀ ch, exactFitGo s ch ofs hints = (s, ch)) := by
  intro hints core hseg
  induction hseg with
  | last h z hpos =>
    intro s ofs hpt hlen
    have hcore : ∀ k,
        (List.replicate h Cell.filled ++ List.replicate z Cell.blank).get? k =
          if k < h then some Cell.filled
          else if k < h + z then some Cell.blank else none := by
      intro k
      by_cases hk : k < h
      · rw [List.get?_append (by simpa using hk), get?_replicate,
          if_pos hk, if_pos hk]
      · rw [List.get?_append_right (by simpa using hk), get?_replicate]
        simp only [List.length_replicate]
        by_cases hk2 : k - h < z
        · rw [if_pos hk2, if_neg hk, if_pos (by omega)]
        · rw [if_neg hk2, if_neg hk, if_neg (by omega)]
    have hclen : (List.replicate h Cell.filled ++ List.replicate z Cell.blank).length
        = h + z := by simp
    refine ⟨h, ⟨hpos, by rw [hclen]; omega⟩, ?_, ?_, ?_, ?_⟩
    · rw [hcore, if_pos (by omega)]
    · intro k h1 h2
      rw [hclen] at h2
      rw [hcore, if_neg (by omega), if_pos (by omega)]
    · simp only [hintsWidth, List.sum_cons, List.sum_nil, List.length_cons,
        List.length_nil]
      push_cast
      omega
    · intro _ ch
      rw [hclen] at hlen
      have hfill : ∀ i, ofs ≤ i → i < ofs + h → s.get? i = some Cell.filled := by
        intro i h1 h2
        have hpi := hpt (i - ofs) (by rw [hclen]; omega)
        rw [show ofs + (i - ofs) = i from by omega] at hpi
        rw [hpi, hcore, if_pos (by omega)]
      have ht1 : forceFillCells s ch ofs h = (s, ch) :=
        forceFillCells_noop s h ofs ch hfill
      simp only [exactFitGo, ht1]
      by_cases hz : z = 0
      · rw [if_neg (show ¬ (ofs + h < s.length) from by omega)]
      · rw [if_pos (show ofs + h < s.length from by omega)]
        have hgapc : s.get? (ofs + h) = some Cell.blank := by
          have hpi := hpt h (by rw [hclen]; omega)
          rw [hpi, hcore, if_neg (by omega), if_pos (by omega)]
        rw [hgapc]
  | step h g hs t hpos hg ht ih =>
    intro s ofs hpt hlen
    have hcore : ∀ k,
        (List.replicate h Cell.filled ++ List.replicate g Cell.blank ++ t).get? k =
          if k < h then some Cell.filled
          else if k < h + g then some Cell.blank else t.get? (k - h - g) := by
      intro k
      by_cases hk : k < h + g
      · rw [List.get?_append (by simp; omega)]
        by_cases hkh : k < h
        · rw [List.get?_append (by simpa using hkh), get?_replicate,
            if_pos hkh, if_pos hkh]
        · rw [List.get?_append_right (by simpa using hkh), get?_replicate]
          simp only [List.length_replicate]
          rw [if_pos (by omega), if_neg hkh, if_pos hk]
      · rw [List.get?_append_right (by simp; omega)]
        simp only [List.length_append, List.length_replicate]
        rw [if_neg (by omega), if_neg hk]
        congr 1
        omega
    have hclen : (List.replicate h Cell.filled ++ List.replicate g Cell.blank ++ t).length
        = h + g + t.length := by
      rw [List.length_append, List.length_append, List.length_replicate,
        List.length_replicate]
    have hpt2 : ∀ k, k < t.length → s.get? (ofs + h + g + k) = t.get? k := by
      intro k hk
      have hpi := hpt (h + g + k) (by rw [hclen]; omega)
      rw [show ofs + (h + g + k) = ofs + h + g + k from by omega] at hpi
      rw [hpi, hcore, if_neg (by omega), if_neg (by omega)]
      congr 1
      omega
    have hlen2 : ofs + h + g + t.length = s.length := by
      rw [hclen] at hlen
      omega
    obtain ⟨eL2, ⟨heL20, heL2len⟩, hlast2, htrail2, hwid2, hex2⟩ :=
      ih s (ofs + h + g) hpt2 hlen2
    refine ⟨h + g + eL2, ⟨by omega, by rw [hclen]; omega⟩, ?_, ?_, ?_, ?_⟩
    · rw [hcore, if_neg (by omega), if_neg (by omega),
        show h + g + eL2 - 1 - h - g = eL2 - 1 from by omega]
      exact hlast2
    · intro k h1 h2
      rw [hclen] at h2
      rw [hcore, if_neg (by omega), if_neg (by omega)]
      exact htrail2 (k - h - g) (by omega) (by omega)
    · rw [hintsWidth_cons h hs]
      push_cast at hwid2 ⊢
      omega
    · intro hw ch
      have hww := hintsWidth_cons h hs
      obtain ⟨hg1, hwhs⟩ : g = 1 ∧ hintsWidth hs = (eL2 : ℤ) := by
        rw [hww] at hw
        push_cast at hw hwid2
        constructor <;> omega
      subst hg1
      have hfill : ∀ i, ofs ≤ i → i < ofs + h → s.get? i = some Cell.filled := by
        intro i h1 h2
        have hpi := hpt (i - ofs) (by rw [hclen]; omega)
        rw [show ofs + (i - ofs) = i from by omega] at hpi
        rw [hpi, hcore, if_pos (by omega)]
      have ht1 : forceFillCells s ch ofs h = (s, ch) :=
        forceFillCells_noop s h ofs ch hfill
      have hgapc : s.get? (ofs + h) = some Cell.blank := by
        have hpi := hpt h (by rw [hclen]; omega)
        rw [hpi, hcore, if_neg (by omega), if_pos (by omega)]
      simp only [exactFitGo, ht1]
      rw [if_pos (show ofs + h < s.length from by omega), hgapc]
      show exactFitGo s ch (ofs + h + 1) hs = (s, ch)
      exact hex2 hwhs ch

/-- C5: amended idempotence.  Re-running `solve_slice` (with the orchestrator's
`force = -1`) on a line that is already solved — no UNKNOWN cell, FILLED runs
spelling the non-empty hints — reports no changed cells and leaves the slice
unchanged, provided neither the empty-hints fast path nor the
single-hint-spans-full-line fast path applies (those two report every cell
changed on every call). -/
theorem c5_idempotence_amended (s : List Cell) (hints : List ℕ)
    (hne : hints ≠ [])
    (hr1 : ¬ (hints.length = 1 ∧ hints.get? 0 = some s.length))
    (hnu : ∀ c ∈ s, c ≠ Cell.unknown)
    (hruns : runsOf s = hints) :
    ∃ r : SliceResult, solveSlice s hints (-1) = .ok r ∧
      r.changed = [] ∧ r.slice = s := by
  obtain ⟨a, core, hs, hseg⟩ := runs_to_seg hnu hne hruns
  have hslen : s.length = a + core.length := by
    rw [hs, List.length_append, List.length_replicate]
  have hsget : ∀ k, k < core.length → s.get? (a + k) = core.get? k := by
    intro k _
    rw [hs, List.get?_append_right (by rw [List.length_replicate]; omega),
      List.length_replicate, show a + k - a = k from by omega]
  have hsblank : ∀ j, j < a → s.get? j = some Cell.blank := by
    intro j hj
    rw [hs, List.get?_append (by rw [List.length_replicate]; exact hj),
      get?_replicate, if_pos hj]
  obtain ⟨p, eL, hpl, hiff, hbound, ⟨heL0, heLlen⟩, hlast, htrail, hpend, hwid⟩ :=
    seg_facts hints core hseg a
  have hhead := seg_head hseg
  have hslt : slTrim s = (a, a + eL - 1, eL) :=
    slTrim_eval s a eL core hs hhead heL0 heLlen hlast htrail
  have hhne : hints.isEmpty = false := by
    cases hints with
    | nil => exact absurd rfl hne
    | cons _ _ => rfl
  simp only [solveSlice]
  rw [hhne, if_neg (show ¬ (false = true) from by simp), if_neg hr1]
  simp only [hslt]
  rw [if_neg (show ¬ (eL = 0) from by omega),
    if_neg (show ¬ (hintsWidth hints > (eL : ℤ)) from by
      rw [not_lt]
      exact hwid)]
  by_cases hex : hintsWidth hints = (eL : ℤ)
  · rw [if_pos hex]
    obtain ⟨eL2, ⟨heL20, heL2len⟩, hlast2, htrail2, _hwid2, hexact2⟩ :=
      seg_exact hints core hseg s a hsget (by omega)
    have heq2 : eL2 = eL :=
      lastFilled_unique heL2len hlast2 htrail2 heL0 heLlen hlast htrail heL20
    rw [heq2] at hexact2
    have hfit : exactFit s a hints = (s, []) := hexact2 hex []
    refine ⟨⟨s, [], 0, true⟩, ?_, rfl, rfl⟩
    simp only [hfit]
  · rw [if_neg hex]
    have hsne : s ≠ [] := by
      intro h0
      rw [h0] at hslen
      simp at hslen
      omega
    obtain ⟨c0, hc0⟩ := List.exists_mem_of_ne_nil s hsne
    have hany : s.any (fun c => decide (c ≠ Cell.unknown)) = true :=
      List.any_eq_true.mpr ⟨c0, hc0, decide_eq_true (hnu c0 hc0)⟩
    have hplz : Placed ((a + eL - 1 : ℕ) : ℤ) a p hints := by
      rw [show ((a + eL - 1 : ℕ) : ℤ) = (a : ℤ) + (eL : ℤ) - 1 from by omega]
      exact hpl
    have hmem : p ∈ getAllPositions a (a + eL - 1) hints :=
      (mem_getAllPositions_iff_placed ((a + eL - 1 : ℕ) : ℤ) hints a p hne).mpr hplz
    have hchain : PairsChain 0 (p.zip hints) :=
      placed_chain ((a + eL - 1 : ℕ) : ℤ) p hints a 0 hplz (Nat.zero_le a)
    have hblocks : ∀ q ∈ p.zip hints, ∀ i, q.1 ≤ i → i < q.1 + q.2 →
        s.get? i ≠ some Cell.blank := by
      intro q hq i h1 h2
      have hcov : coveredBy (p.zip hints) i := ⟨q, hq, h1, h2⟩
      obtain ⟨hia, hib⟩ := hbound i hcov
      have hgi := hsget (i - a) (by omega)
      rw [show a + (i - a) = i from by omega] at hgi
      have hcov2 : coveredBy (p.zip hints) (a + (i - a)) := by
        rw [show a + (i - a) = i from by omega]
        exact hcov
      have hfc : core.get? (i - a) = some Cell.filled :=
        (hiff (i - a) (by omega)).mpr hcov2
      rw [hgi, hfc]
      simp
    have hgaps : ∀ i, 0 ≤ i → i < pairsEnd 0 (p.zip hints) →
        ¬ coveredBy (p.zip hints) i → s.get? i ≠ some Cell.filled := by
      intro i _ hilt hncov
      rw [hpend 0] at hilt
      by_cases hia : i < a
      · rw [hsblank i hia]
        simp
      · have hik : i - a < core.length := by omega
        have hgi := hsget (i - a) hik
        rw [show a + (i - a) = i from by omega] at hgi
        rw [hgi]
        intro hfc
        have hcov2 := (hiff (i - a) hik).mp hfc
        rw [show a + (i - a) = i from by omega] at hcov2
        exact hncov hcov2
    have hok : okEnd s 0 (p.zip hints) = some (a + eL) := by
      have hres := okEnd_succeeds s (p.zip hints) 0 hchain hblocks hgaps
      rw [hpend 0] at hres
      exact hres
    have hsurv : survivesR s (a + eL - 1) hints p = true := by
      simp only [survivesR, hok]
      rw [if_neg (show ¬ (a + eL ≤ a + eL - 1) from by omega)]
    obtain ⟨fc2, hloop⟩ := recLoop_neg s a (a + eL - 1) hints (-1) (by norm_num)
      (getAllPositions a (a + eL - 1) hints) 0 (List.replicate s.length 0)
    have hKpos : 0 < ((getAllPositions a (a + eL - 1) hints).filter
        (survivesR s (a + eL - 1) hints)).length := by
      have hmemf : p ∈ (getAllPositions a (a + eL - 1) hints).filter
          (survivesR s (a + eL - 1) hints) := List.mem_filter.mpr ⟨hmem, hsurv⟩
      exact List.length_pos.mpr (List.ne_nil_of_mem hmemf)
    have hIA : intersectAux
        (0 + ((getAllPositions a (a + eL - 1) hints).filter
          (survivesR s (a + eL - 1) hints)).length) fc2 s 0 = (s, []) :=
      intersectAux_noop _ fc2 s 0 hnu
    have hrec : recursiveSolve s hints eL a (a + eL - 1) (-1) =
        .ok (s, [],
          0 + ((getAllPositions a (a + eL - 1) hints).filter
            (survivesR s (a + eL - 1) hints)).length) := by
      simp only [recursiveSolve]
      split
      · rename_i hcon
        exact absurd hany hcon.1
      · simp only [hloop]
        rw [if_neg (show ¬ (0 + ((getAllPositions a (a + eL - 1) hints).filter
            (survivesR s (a + eL - 1) hints)).length = 0) from by omega)]
        simp only [hIA]
    refine ⟨⟨s, [],
      0 + ((getAllPositions a (a + eL - 1) hints).filter
        (survivesR s (a + eL - 1) hints)).length, false⟩, ?_, rfl, rfl⟩
    simp only [hrec]
    rw [if_pos (show ([] : List ℕ).isEmpty = true from rfl)]

/-- C5 witness: the already-solved line `[FILLED, BLANK, FILLED]` with hints
`[1, 1]` re-solves with no changed cells and an unchanged slice. -/
theorem c5_idempotence_amended_witness :
    ∃ r : SliceResult,
      solveSlice [Cell.filled, Cell.blank, Cell.filled] [1, 1] (-1) = .ok r ∧
        r.changed = [] ∧ r.slice = [Cell.filled, Cell.blank, Cell.filled] :=
  c5_idempotence_amended [Cell.filled, Cell.blank, Cell.filled] [1, 1]
    (by decide) (by decide) (by decide) (by decide)

end PyCross
